import Mathlib

/-!
Shallow embedding of the `cidrx` IPv6 pool allocator (Go) and verification of
its specified properties.

Source layout mirrored here:
- `uint128.go`  : two-word 128-bit unsigned arithmetic (`Uint128`, add/sub/lsh/rsh);
- `errors.go`   : error values (modelled as the inductive `Err`);
- `block.go`    : fixed-size bitmap `Block` (`allocBit`, `releaseBit`, `bitToIP`,
  `ipToBit`) and the `Pool` (`NewPool`, `Allocate`, `Release`);
- snapshot file : `Snapshot`, `Pool.Snapshot`, `NewPoolFromSnapshot`.

Modelling conventions:
- every Go `uint64` is a `Nat` together with explicit reductions `% W` where the
  code can wrap (`W = 2^64`); Go shifts of a `uint64` by a count `≥ 64` yield `0`,
  which the helpers `shl64`/`shr64` reproduce;
- a 16-byte `net.IP` value and its `Uint128` image under the source's
  `fromIP`/`toIP` (big-endian byte codec) are identified: addresses are `Uint128`
  values whose words are `< 2^64` (`Uint128.wf`);
- `ip.Mask(net.CIDRMask(n, 128))` keeps the top `n` bits of the address and
  zeroes the remaining `128 - n` host bits; `Uint128.maskN` performs exactly that
  on the two words;
- Go maps become functions into `Option`, Go slices become `List Nat`;
  `goCopy` reproduces the semantics of Go's `copy(dst, src)`;
- the free-list is kept in Go slice order (push = append at the end, pop = take
  from the end); `allocFLAux` runs the pop loop on the reversed list;
- `Pool.Allocate` returns `Option (...)`: `none` models the nil-pointer panic
  that Go would hit if a free-list index had no block in the `blocks` map
  (`p.blocks[bi]` yielding `nil` before `blk.allocBit()`);
- the `expectedBlocks` argument only pre-reserves slice capacity in Go and has
  no behavioural effect; it is accepted and ignored;
- `net.IPNet.Mask` of a block's `prefix` is never read by any operation, so a
  `Block` keeps only the base address (`prefix.IP`), as `prefixIP`;
  the pool-level `blockMask` is kept (as its byte list) because
  `NewPoolFromSnapshot` checks it against `nil`.
-/

namespace Cidrx

/-- `2^64`, the modulus of Go's `uint64`. -/
def W : Nat := 2 ^ 64

/-- `math/bits.Add64`: sum modulo `2^64` together with the carry-out. -/
def add64 (x y c : Nat) : Nat × Nat :=
  ((x + y + c) % W, (x + y + c) / W)

/-- `math/bits.Sub64`: difference modulo `2^64` together with the borrow-out. -/
def sub64 (x y b : Nat) : Nat × Nat :=
  if x < y + b then (x + W - (y + b), 1) else (x - (y + b), 0)

/-- Go `<<` on `uint64`: shift counts `≥ 64` give `0`, otherwise wrap `% 2^64`. -/
def shl64 (x k : Nat) : Nat :=
  if 64 ≤ k then 0 else (x <<< k) % W

/-- Go `>>` on `uint64`: shift counts `≥ 64` give `0`. -/
def shr64 (x k : Nat) : Nat :=
  if 64 ≤ k then 0 else x >>> k

/-- Go `^x` (bitwise complement) on `uint64`: xor with all ones. -/
def compl64 (x : Nat) : Nat := x ^^^ (W - 1)

/-- Fuelled trailing-zero count: parity recursion, `fuel` bits inspected. -/
def tzAux : Nat → Nat → Nat
  | 0, _ => 0
  | fuel + 1, x => if x % 2 = 1 then 0 else tzAux fuel (x / 2) + 1

/-- `math/bits.TrailingZeros64` (returns `64` on input `0`). -/
def tz64 (x : Nat) : Nat := tzAux 64 x

/-- Fuelled population count: parity recursion over `fuel` bits. -/
def popcountAux : Nat → Nat → Nat
  | 0, _ => 0
  | fuel + 1, x => x % 2 + popcountAux fuel (x / 2)

/-- `math/bits.OnesCount64` for a word `< 2^64`. -/
def pc64 (x : Nat) : Nat := popcountAux 64 x

/-- The source's `Uint128` struct: two `uint64` words, `Hi` and `Lo`. -/
structure Uint128 where
  Hi : Nat
  Lo : Nat
deriving Repr, DecidableEq

/-- Well-formedness: both words are genuine `uint64` values. -/
def Uint128.wf (x : Uint128) : Prop := x.Hi < 2 ^ 64 ∧ x.Lo < 2 ^ 64

/-- The number denoted by a `Uint128`. -/
def Uint128.val (x : Uint128) : Nat := x.Hi * 2 ^ 64 + x.Lo

/-- The `Uint128` with the given value (analysis-side inverse of `val`). -/
def ofVal (v : Nat) : Uint128 := ⟨v / 2 ^ 64, v % 2 ^ 64⟩

/-- Source `(x Uint128) add(y Uint128)`: word-wise sum with carry propagation. -/
def Uint128.add (x y : Uint128) : Uint128 :=
  let lc := add64 x.Lo y.Lo 0
  let hc := add64 x.Hi y.Hi lc.2
  ⟨hc.1, lc.1⟩

/-- Source `(x Uint128) sub(y Uint128)`: word-wise difference with borrow. -/
def Uint128.sub (x y : Uint128) : Uint128 :=
  let lb := sub64 x.Lo y.Lo 0
  let hb := sub64 x.Hi y.Hi lb.2
  ⟨hb.1, lb.1⟩

/-- Source `(x Uint128) lsh(k uint)`: left shift by `0 ≤ k < 128`. -/
def Uint128.lsh (x : Uint128) (k : Nat) : Uint128 :=
  if 64 ≤ k then ⟨shl64 x.Lo (k - 64), 0⟩
  else ⟨shl64 x.Hi k ||| shr64 x.Lo (64 - k), shl64 x.Lo k⟩

/-- Source `(x Uint128) rsh(k uint)`: right shift by `0 ≤ k < 128`. -/
def Uint128.rsh (x : Uint128) (k : Nat) : Uint128 :=
  if 64 ≤ k then ⟨0, shr64 x.Hi (k - 64)⟩
  else ⟨shr64 x.Hi k, shr64 x.Lo k ||| shl64 x.Hi (64 - k)⟩

/-- `ip.Mask(net.CIDRMask(n, 128))`: keep the top `n` bits, clear the low
`128 - n` host bits (the byte-wise AND with the CIDR mask does exactly this). -/
def Uint128.maskN (x : Uint128) (n : Nat) : Uint128 :=
  if n ≤ 64 then ⟨x.Hi - x.Hi % 2 ^ (64 - n), 0⟩
  else ⟨x.Hi, x.Lo - x.Lo % 2 ^ (128 - n)⟩

/-- One step of `net.CIDRMask(ones, 128)`'s byte loop: `k` bytes remaining. -/
def cidrMaskAux : Nat → Nat → List Nat
  | 0, _ => []
  | k + 1, ones =>
    if 8 ≤ ones then 255 :: cidrMaskAux k (ones - 8)
    else (255 - 255 / 2 ^ ones) :: cidrMaskAux k 0

/-- `net.CIDRMask(ones, 128)` as its 16-byte list. -/
def cidrMask (ones : Nat) : List Nat := cidrMaskAux 16 ones

/-- All error values of the library (`errors.go` sentinels plus the
`fmt.Errorf` values created by `NewPool`, `Allocate`, `Release` and
`NewPoolFromSnapshot`). -/
inductive Err where
  | blockFull
  | outOfRange
  | notAllocated
  | invalidAddress
  | invalidPrefix
  | invalidBlockPrefix
  | tooManyBlocks
  | poolExhausted
  | ipNotFromPool
  | invalidSnapshot
deriving Repr, DecidableEq

/-- Source `block`: bitmap for one CIDR segment.  `prefixIP` is `prefix.IP`
(the `Mask` component of the `net.IPNet` is never read). -/
structure Block where
  prefixIP : Uint128
  used : List Nat
  freeCount : Nat
  size : Nat
deriving Repr, DecidableEq

/-- Source `newBlock(prefix, size)`. -/
def newBlock (prefixIP : Uint128) (size : Nat) : Block :=
  { prefixIP := prefixIP
    used := List.replicate ((size + 63) / 64) 0
    freeCount := size
    size := size }

/-- The word loop of `allocBit`: scan words from word index `wi`; in the first
word whose complement is nonzero take the lowest zero bit; skip the word when
that bit's index is `≥ size` (Go's `continue`); otherwise set the bit. -/
def allocWords (size : Nat) : Nat → List Nat → Option (Nat × List Nat)
  | _, [] => none
  | wi, w :: rest =>
    if compl64 w ≠ 0 then
      let bit := tz64 (compl64 w)
      let idx := wi * 64 + bit
      if size ≤ idx then
        match allocWords size (wi + 1) rest with
        | some (r, rest2) => some (r, w :: rest2)
        | none => none
      else
        some (idx, (w ||| (1 <<< bit)) :: rest)
    else
      match allocWords size (wi + 1) rest with
      | some (r, rest2) => some (r, w :: rest2)
      | none => none

/-- Source `(b *block) allocBit()`: find and set the first zero bit; on success
decrement `freeCount` (a `uint64` decrement, hence the wrap). -/
def Block.allocBit (b : Block) : Except Err (Nat × Block) :=
  match allocWords b.size 0 b.used with
  | some (idx, ws) =>
    .ok (idx, { b with used := ws, freeCount := (b.freeCount + (W - 1)) % W })
  | none => .error .blockFull

/-- Source `(b *block) releaseBit(idx)`: bounds check, double-free check, then
clear the bit (`&^=`) and increment `freeCount` (`uint64` increment). -/
def Block.releaseBit (b : Block) (idx : Nat) : Except Err Block :=
  if b.size ≤ idx then .error .outOfRange
  else
    let wi := idx / 64
    let bit := idx % 64
    if (b.used.getD wi 0) &&& (1 <<< bit) = 0 then .error .notAllocated
    else
      .ok { b with
              used := b.used.set wi ((b.used.getD wi 0) &&& compl64 (1 <<< bit))
              freeCount := (b.freeCount + 1) % W }

/-- Source `(b *block) bitToIP(idx)`: base address plus offset, with carry
propagation from the low to the high word. -/
def Block.bitToIP (b : Block) (idx : Nat) : Uint128 :=
  let lc := add64 b.prefixIP.Lo idx 0
  let hc := add64 b.prefixIP.Hi 0 lc.2
  ⟨hc.1, lc.1⟩

/-- Source `(b *block) ipToBit(ip)`: 128-bit subtraction of the block base with
borrow; out of range when the subtraction underflows, the high difference word
is nonzero, or the low difference word is `≥ size`. -/
def Block.ipToBit (b : Block) (ip : Uint128) : Except Err Nat :=
  let dl := sub64 ip.Lo b.prefixIP.Lo 0
  let dh := sub64 ip.Hi b.prefixIP.Hi dl.2
  if dh.2 ≠ 0 ∨ dh.1 ≠ 0 then .error .outOfRange
  else if b.size ≤ dl.1 then .error .outOfRange
  else .ok dl.1

/-- Source `Pool` (the mutex is serialization-only and not modelled;
`blockMask` is the byte list of the network-prefix CIDR mask). -/
structure Pool where
  blockMask : List Nat
  networkAddr : Uint128
  hostBits : Nat
  blockSize : Nat
  blocks : Nat → Option Block
  freeList : List Nat
  nextBlockIndex : Nat
  maxBlocks : Nat

/-- Source `NewPool`.  The `net.ParseIP` / IPv4-exclusion step is the external
address-parsing collaborator: the model receives the already-parsed 16-byte
address as a `Uint128`.  The remaining validations and derivations follow the
source order.  `expectedBlocks` only sizes a slice and is ignored. -/
def NewPool (ip : Uint128) (netPrefixLen blockPrefix _expectedBlocks : Int) :
    Except Err Pool :=
  if netPrefixLen < 0 ∨ 128 < netPrefixLen then .error .invalidPrefix
  else
    let n := netPrefixLen.toNat
    if blockPrefix ≤ netPrefixLen ∨ 128 < blockPrefix then .error .invalidBlockPrefix
    else
      let bp := blockPrefix.toNat
      let diff := bp - n
      if 63 < diff then .error .tooManyBlocks
      else
        .ok { blockMask := cidrMask n
              networkAddr := ip.maskN n
              hostBits := 128 - bp
              blockSize := shl64 1 (128 - bp)
              blocks := fun _ => none
              freeList := []
              nextBlockIndex := 0
              maxBlocks := shl64 1 diff }

/-- The free-list pop loop of `Allocate`, acting on the reversed free list
(head = most recently pushed).  Outer `none`: a popped index has no block in
the map, which in Go is a nil-pointer dereference at `blk.allocBit()`.
Inner `none`: the loop ran the list dry and `Allocate` falls through to block
creation.  On success: the popped index, the allocated offset, the mutated
block, and the (reversed) remainder of the free list. -/
def allocFLAux (blocks : Nat → Option Block) :
    List Nat → Option (Option (Nat × Nat × Block) × List Nat)
  | [] => some (none, [])
  | bi :: rest =>
    match blocks bi with
    | none => none
    | some blk =>
      match blk.allocBit with
      | .ok (idx, blk2) => some (some (bi, idx, blk2), rest)
      | .error _ => allocFLAux blocks rest

/-- Update one key of the blocks map. -/
def updBlocks (m : Nat → Option Block) (k : Nat) (b : Block) : Nat → Option Block :=
  fun i => if i = k then some b else m i

/-- Source `(p *Pool) Allocate()`.  `none` models the nil-map-entry panic;
otherwise the result is the returned `(net.IP, error)` pair together with the
post-state. -/
def Pool.Allocate (p : Pool) : Option (Except Err Uint128 × Pool) :=
  match allocFLAux p.blocks p.freeList.reverse with
  | none => none
  | some (some (bi, idx, blk2), restRev) =>
    let fl := restRev.reverse
    let fl2 := if 0 < blk2.freeCount then fl ++ [bi] else fl
    some (.ok (blk2.bitToIP idx),
      { p with blocks := updBlocks p.blocks bi blk2, freeList := fl2 })
  | some (none, _) =>
    if p.maxBlocks ≤ p.nextBlockIndex then
      some (.error .poolExhausted, { p with freeList := [] })
    else
      let bi := p.nextBlockIndex
      let startBI := (p.networkAddr.lsh 0).add (Uint128.mk 0 bi |>.lsh p.hostBits)
      let blk := newBlock startBI p.blockSize
      match blk.allocBit with
      | .ok (idx, blk2) =>
        let fl2 := if 0 < blk2.freeCount then ([] : List Nat) ++ [bi] else []
        some (.ok (blk2.bitToIP idx),
          { p with blocks := updBlocks p.blocks bi blk2, freeList := fl2,
                   nextBlockIndex := bi + 1 })
      | .error _ =>
        -- `idx, _ := blk.allocBit()` ignores the error: `idx` is the zero
        -- value and the block is unchanged.
        let idx := 0
        let fl2 := if 0 < blk.freeCount then ([] : List Nat) ++ [bi] else []
        some (.ok (blk.bitToIP idx),
          { p with blocks := updBlocks p.blocks bi blk, freeList := fl2,
                   nextBlockIndex := bi + 1 })

/-- Source `(p *Pool) Release(ip)`: block index from `(ip - base) >> hostBits`
truncated to its low word, then `ipToBit` and `releaseBit`, re-pushing the
block on the free list when it has spare capacity afterwards. -/
def Pool.Release (p : Pool) (ip : Uint128) : Except Err Unit × Pool :=
  let delta := ip.sub p.networkAddr
  let bi := (delta.rsh p.hostBits).Lo
  match p.blocks bi with
  | none => (.error .ipNotFromPool, p)
  | some blk =>
    match blk.ipToBit ip with
    | .error e => (.error e, p)
    | .ok idx =>
      match blk.releaseBit idx with
      | .error e => (.error e, p)
      | .ok blk2 =>
        let p2 := { p with blocks := updBlocks p.blocks bi blk2 }
        if 0 < blk2.freeCount then
          (.ok (), { p2 with freeList := p.freeList ++ [bi] })
        else (.ok (), p2)

/-- Source `Snapshot` struct: configuration scalars, the free list, and each
existing block's raw bitmap words. -/
structure Snapshot where
  BlockMask : List Nat
  NetworkAddr : Uint128
  HostBits : Nat
  BlockSize : Nat
  NextBlockIndex : Nat
  MaxBlocks : Nat
  FreeList : List Nat
  Blocks : Nat → Option (List Nat)

/-- Source `(p *Pool) Snapshot()`: a deep copy of the state (copies are
identities in the functional model). -/
def Pool.Snapshot (p : Pool) : Snapshot :=
  { BlockMask := p.blockMask
    NetworkAddr := p.networkAddr
    HostBits := p.hostBits
    BlockSize := p.blockSize
    NextBlockIndex := p.nextBlockIndex
    MaxBlocks := p.maxBlocks
    FreeList := p.freeList
    Blocks := fun i => (p.blocks i).map Block.used }

/-- Go `copy(dst, src)`: overwrite the first `min |dst| |src|` entries of
`dst` with those of `src`. -/
def goCopy (dst src : List Nat) : List Nat :=
  src.take dst.length ++ dst.drop src.length

/-- The `usedCount` accumulation loop of `NewPoolFromSnapshot`
(`uint64` additions of per-word popcounts). -/
def usedCountOf (words : List Nat) : Nat :=
  words.foldl (fun acc w => (acc + pc64 w) % W) 0

/-- Source `NewPoolFromSnapshot`: validate, rebuild every block from its words
(recomputing `freeCount` from set bits with `uint64` arithmetic), copy the
free list and scalars. -/
def NewPoolFromSnapshot (s : Snapshot) : Except Err Pool :=
  if s.BlockMask = [] ∨ s.BlockSize = 0 then .error .invalidSnapshot
  else
    .ok { blockMask := s.BlockMask
          networkAddr := s.NetworkAddr
          hostBits := s.HostBits
          blockSize := s.BlockSize
          blocks := fun idx =>
            (s.Blocks idx).map (fun words =>
              let startBI := s.NetworkAddr.add (Uint128.mk 0 idx |>.lsh s.HostBits)
              let blk := newBlock startBI s.BlockSize
              { blk with
                  used := goCopy blk.used words
                  freeCount := (s.BlockSize + W - usedCountOf words % W) % W })
          freeList := s.FreeList
          nextBlockIndex := s.NextBlockIndex
          maxBlocks := s.MaxBlocks }

/-- Run `k` consecutive `Allocate` calls, collecting results;
`none` if any call panics. -/
def allocSeq (p : Pool) : Nat → Option (List (Except Err Uint128) × Pool)
  | 0 => some ([], p)
  | k + 1 =>
    match p.Allocate with
    | none => none
    | some (r, p2) =>
      match allocSeq p2 k with
      | none => none
      | some (rs, pf) => some (r :: rs, pf)

/-- Bit `t` of a word-list bitmap (word `t / 64`, bit `t % 64`). -/
def bmBit (ws : List Nat) (t : Nat) : Bool :=
  (ws.getD (t / 64) 0).testBit (t % 64)

/-- Total number of set bits of a word-list bitmap (exact, no wrap). -/
def bitsum : List Nat → Nat
  | [] => 0
  | w :: ws => pc64 w + bitsum ws

/-! ### Arithmetic facts about the word helpers -/

theorem W_def : W = 2 ^ 64 := rfl

theorem W_pos : 0 < W := by norm_num [W]

theorem Uint128.val_lt {x : Uint128} (h : x.wf) : x.val < 2 ^ 128 := by
  obtain ⟨h1, h2⟩ := h
  simp only [Uint128.val] at *
  omega

theorem Uint128.eq_of_val {x y : Uint128} (hx : x.wf) (hy : y.wf)
    (h : x.val = y.val) : x = y := by
  obtain ⟨hx1, hx2⟩ := hx
  obtain ⟨hy1, hy2⟩ := hy
  cases x
  cases y
  simp only [Uint128.val] at *
  simp only [Uint128.mk.injEq]
  omega

theorem ofVal_wf {v : Nat} (h : v < 2 ^ 128) : (ofVal v).wf := by
  constructor <;> simp only [ofVal] <;> omega

theorem ofVal_val {v : Nat} (h : v < 2 ^ 128) : (ofVal v).val = v := by
  simp only [ofVal, Uint128.val]
  omega

theorem ofVal_eq {x : Uint128} (hx : x.wf) : ofVal x.val = x := by
  obtain ⟨h1, h2⟩ := hx
  cases x
  simp only [ofVal, Uint128.val, Uint128.mk.injEq] at *
  omega

theorem Uint128.add_spec {x y : Uint128} (hx : x.wf) (hy : y.wf) :
    (x.add y).wf ∧ (x.add y).val = (x.val + y.val) % 2 ^ 128 := by
  obtain ⟨hx1, hx2⟩ := hx
  obtain ⟨hy1, hy2⟩ := hy
  simp only [Uint128.add, add64, Uint128.val, Uint128.wf, W_def] at *
  refine ⟨⟨?_, ?_⟩, ?_⟩ <;> omega

theorem Uint128.add_val_of_lt {x y : Uint128} (hx : x.wf) (hy : y.wf)
    (h : x.val + y.val < 2 ^ 128) : (x.add y).val = x.val + y.val := by
  rw [(Uint128.add_spec hx hy).2, Nat.mod_eq_of_lt h]

theorem Uint128.sub_spec {x y : Uint128} (hx : x.wf) (hy : y.wf)
    (hle : y.val ≤ x.val) : (x.sub y).wf ∧ (x.sub y).val = x.val - y.val := by
  obtain ⟨hx1, hx2⟩ := hx
  obtain ⟨hy1, hy2⟩ := hy
  simp only [Uint128.sub, sub64, Uint128.val, Uint128.wf, W_def] at *
  split_ifs with h1 h2 h2 <;> refine ⟨⟨?_, ?_⟩, ?_⟩ <;> simp only [] <;> omega

theorem shl64_lt (x k : Nat) : shl64 x k < 2 ^ 64 := by
  unfold shl64
  split
  · positivity
  · rw [W_def]
    exact Nat.mod_lt _ (by positivity)

theorem shl64_zero_left (k : Nat) : shl64 0 k = 0 := by
  unfold shl64
  split
  · rfl
  · simp

theorem shl64_of_lt {k : Nat} (hk : k < 64) (x : Nat) :
    shl64 x k = (x * 2 ^ k) % 2 ^ 64 := by
  rw [shl64, if_neg (by omega), Nat.shiftLeft_eq, W_def]

theorem shr64_of_lt {k : Nat} (hk : k < 64) (x : Nat) :
    shr64 x k = x / 2 ^ k := by
  rw [shr64, if_neg (by omega), Nat.shiftRight_eq_div_pow]

theorem shr64_of_ge {k : Nat} (h : 64 ≤ k) (x : Nat) : shr64 x k = 0 :=
  if_pos h

theorem shl64_of_ge {k : Nat} (h : 64 ≤ k) (x : Nat) : shl64 x k = 0 :=
  if_pos h

theorem shr64_lt {x : Nat} (hx : x < 2 ^ 64) (k : Nat) : shr64 x k < 2 ^ 64 := by
  unfold shr64
  split
  · positivity
  · rw [Nat.shiftRight_eq_div_pow]
    exact Nat.lt_of_le_of_lt (Nat.div_le_self _ _) hx

/-- Splitting a mixed-radix remainder: `(a·c + d) mod (b·c) = (a mod b)·c + d`
for `d < c`. -/
theorem mod_mul_split (a b c d : Nat) (hb : 0 < b) (hd : d < c) :
    (a * c + d) % (b * c) = a % b * c + d := by
  conv_lhs => rw [← Nat.div_add_mod a b]
  have h1 : (b * (a / b) + a % b) * c + d = b * c * (a / b) + (a % b * c + d) := by ring
  rw [h1, Nat.mul_add_mod]
  exact Nat.mod_eq_of_lt (by
    have h2 : a % b < b := Nat.mod_lt _ hb
    have h3 : a % b * c + c ≤ b * c := by
      calc a % b * c + c = (a % b + 1) * c := by ring
        _ ≤ b * c := Nat.mul_le_mul_right _ (by omega)
    omega)

theorem Uint128.lsh_zero {x : Uint128} (hx : x.wf) : x.lsh 0 = x := by
  obtain ⟨h1, h2⟩ := hx
  cases x
  simp only [Uint128.lsh, if_neg (show ¬ (64 ≤ 0) by norm_num),
    shl64_of_lt (show 0 < 64 by norm_num), Nat.sub_zero, shr64_of_ge (le_refl 64),
    pow_zero, Nat.mul_one, Nat.or_zero, Uint128.mk.injEq] at *
  constructor <;> omega

/-- Value of `Uint128{Lo: v}.lsh k` when the mathematical result fits. -/
theorem lshLo_spec {v k : Nat} (hv : v < 2 ^ 64) (hk : k < 128)
    (hbound : v * 2 ^ k < 2 ^ 128) :
    ((Uint128.mk 0 v).lsh k).wf ∧ ((Uint128.mk 0 v).lsh k).val = v * 2 ^ k := by
  by_cases h64 : 64 ≤ k
  · have hk2 : k - 64 < 64 := by omega
    have hpow : (2 : Nat) ^ k = 2 ^ (k - 64) * 2 ^ 64 := by
      rw [← pow_add]
      congr 1
      omega
    have hsmall : v * 2 ^ (k - 64) < 2 ^ 64 := by
      rw [hpow, ← Nat.mul_assoc] at hbound
      have h128 : (2 : Nat) ^ 128 = 2 ^ 64 * 2 ^ 64 := by norm_num
      rw [h128] at hbound
      exact lt_of_mul_lt_mul_right hbound (Nat.zero_le _)
    simp only [Uint128.lsh, if_pos h64, shl64_of_lt hk2, Uint128.wf, Uint128.val]
    rw [Nat.mod_eq_of_lt hsmall]
    refine ⟨⟨hsmall, by positivity⟩, ?_⟩
    rw [hpow]
    ring
  · push_neg at h64
    by_cases hk0 : k = 0
    · subst hk0
      rw [Uint128.lsh_zero ⟨by positivity, hv⟩]
      simpa [Uint128.wf, Uint128.val] using hv
    · have hb64 : 64 - k < 64 := by omega
      have hpow : (2 : Nat) ^ (64 - k) * 2 ^ k = 2 ^ 64 := by
        rw [← pow_add]
        congr 1
        omega
      simp only [Uint128.lsh, if_neg (show ¬ (64 ≤ k) by omega), shl64_zero_left,
        shr64_of_lt hb64, shl64_of_lt h64, Nat.zero_mul, Nat.zero_mod,
        Nat.zero_or, Uint128.wf, Uint128.val]
      have hmod : v * 2 ^ k % 2 ^ 64 = v % 2 ^ (64 - k) * 2 ^ k := by
        rw [← hpow]
        exact Nat.mul_mod_mul_right _ _ _
      have hdivlt : v / 2 ^ (64 - k) < 2 ^ 64 := by
        have := Nat.div_le_self v (2 ^ (64 - k))
        omega
      refine ⟨⟨hdivlt, Nat.mod_lt _ (by positivity)⟩, ?_⟩
      rw [hmod]
      have hsplit := Nat.div_add_mod v (2 ^ (64 - k))
      calc v / 2 ^ (64 - k) * 2 ^ 64 + v % 2 ^ (64 - k) * 2 ^ k
          = (2 ^ (64 - k) * (v / 2 ^ (64 - k)) + v % 2 ^ (64 - k)) * 2 ^ k := by
            rw [← hpow]
            ring
        _ = v * 2 ^ k := by rw [hsplit]

/-- `rsh` computes the 128-bit right shift exactly. -/
theorem Uint128.rsh_spec {x : Uint128} (hx : x.wf) {k : Nat} (hk : k < 128) :
    (x.rsh k).wf ∧ (x.rsh k).val = x.val / 2 ^ k := by
  obtain ⟨h1, h2⟩ := hx
  by_cases h64 : 64 ≤ k
  · have hk2 : k - 64 < 64 := by omega
    have hpow : (2 : Nat) ^ k = 2 ^ 64 * 2 ^ (k - 64) := by
      rw [← pow_add]
      congr 1
      omega
    simp only [Uint128.rsh, if_pos h64, shr64_of_lt hk2, Uint128.wf, Uint128.val]
    have hdivlt : x.Hi / 2 ^ (k - 64) < 2 ^ 64 := by
      have := Nat.div_le_self x.Hi (2 ^ (k - 64))
      omega
    refine ⟨⟨by positivity, hdivlt⟩, ?_⟩
    rw [hpow, ← Nat.div_div_eq_div_mul]
    have hfirst : (x.Hi * 2 ^ 64 + x.Lo) / 2 ^ 64 = x.Hi := by
      rw [Nat.mul_comm, Nat.mul_add_div (by positivity), Nat.div_eq_of_lt h2,
        Nat.add_zero]
    rw [hfirst]
    omega
  · push_neg at h64
    by_cases hk0 : k = 0
    · subst hk0
      simp only [Uint128.rsh, if_neg (show ¬ (64 ≤ 0) by norm_num),
        shr64_of_lt (show 0 < 64 by norm_num), pow_zero, Nat.div_one,
        Nat.sub_zero, shl64_of_ge (le_refl 64), Uint128.wf, Uint128.val, Nat.or_zero]
      exact ⟨⟨h1, h2⟩, trivial⟩
    · have hb64 : 64 - k < 64 := by omega
      have hpow : (2 : Nat) ^ k * 2 ^ (64 - k) = 2 ^ 64 := by
        rw [← pow_add]
        congr 1
        omega
      simp only [Uint128.rsh, if_neg (show ¬ (64 ≤ k) by omega), shr64_of_lt h64,
        shl64_of_lt hb64, Uint128.wf, Uint128.val]
      have hmod : x.Hi * 2 ^ (64 - k) % 2 ^ 64 = x.Hi % 2 ^ k * 2 ^ (64 - k) := by
        rw [← hpow]
        exact Nat.mul_mod_mul_right _ _ _
      have hdisj : x.Lo / 2 ^ k < 2 ^ (64 - k) := by
        apply Nat.div_lt_of_lt_mul
        rw [hpow]
        exact h2
      have hor : x.Lo / 2 ^ k ||| x.Hi * 2 ^ (64 - k) % 2 ^ 64
          = x.Hi % 2 ^ k * 2 ^ (64 - k) + x.Lo / 2 ^ k := by
        rw [hmod, Nat.lor_comm, Nat.mul_comm (x.Hi % 2 ^ k)]
        rw [← Nat.mul_add_lt_is_or hdisj, Nat.mul_comm]
      rw [hor]
      have hm : x.Hi % 2 ^ k < 2 ^ k := Nat.mod_lt _ (by positivity)
      have hlolt : x.Hi % 2 ^ k * 2 ^ (64 - k) + x.Lo / 2 ^ k < 2 ^ 64 := by
        have hstep : x.Hi % 2 ^ k * 2 ^ (64 - k) + 2 ^ (64 - k) ≤ 2 ^ k * 2 ^ (64 - k) := by
          calc x.Hi % 2 ^ k * 2 ^ (64 - k) + 2 ^ (64 - k)
              = (x.Hi % 2 ^ k + 1) * 2 ^ (64 - k) := by ring
            _ ≤ 2 ^ k * 2 ^ (64 - k) := Nat.mul_le_mul_right _ (by omega)
        rw [hpow] at hstep
        omega
      have hdivhi : x.Hi / 2 ^ k < 2 ^ 64 := by
        have := Nat.div_le_self x.Hi (2 ^ k)
        omega
      refine ⟨⟨hdivhi, hlolt⟩, ?_⟩
      have hexp : (x.Hi * 2 ^ 64 + x.Lo) / 2 ^ k
          = x.Hi * 2 ^ (64 - k) + x.Lo / 2 ^ k := by
        rw [← hpow, ← Nat.mul_assoc, Nat.mul_comm x.Hi (2 ^ k), Nat.mul_assoc,
          Nat.mul_add_div (by positivity)]
      rw [hexp]
      have hsplit := Nat.div_add_mod x.Hi (2 ^ k)
      calc x.Hi / 2 ^ k * 2 ^ 64 + (x.Hi % 2 ^ k * 2 ^ (64 - k) + x.Lo / 2 ^ k)
          = (2 ^ k * (x.Hi / 2 ^ k) + x.Hi % 2 ^ k) * 2 ^ (64 - k) + x.Lo / 2 ^ k := by
            rw [← hpow]
            ring
        _ = x.Hi * 2 ^ (64 - k) + x.Lo / 2 ^ k := by rw [hsplit]

/-- `maskN` keeps the top `n` bits of the value. -/
theorem Uint128.maskN_spec {x : Uint128} (hx : x.wf) {n : Nat} (hn : n ≤ 128) :
    (x.maskN n).wf ∧ (x.maskN n).val = x.val - x.val % 2 ^ (128 - n) := by
  obtain ⟨h1, h2⟩ := hx
  by_cases hc : n ≤ 64
  · have hpow : (2 : Nat) ^ (128 - n) = 2 ^ (64 - n) * 2 ^ 64 := by
      rw [← pow_add]
      congr 1
      omega
    have hsplit : x.val % 2 ^ (128 - n) = x.Hi % 2 ^ (64 - n) * 2 ^ 64 + x.Lo := by
      rw [hpow, Uint128.val]
      exact mod_mul_split _ _ _ _ (by positivity) h2
    have hr : x.Hi % 2 ^ (64 - n) ≤ x.Hi := Nat.mod_le _ _
    simp only [Uint128.maskN, if_pos hc]
    rw [hsplit]
    simp only [Uint128.wf, Uint128.val]
    refine ⟨⟨by omega, by positivity⟩, ?_⟩
    omega
  · push_neg at hc
    have hpow : (2 : Nat) ^ 64 = 2 ^ (128 - n) * 2 ^ (64 - (128 - n)) := by
      rw [← pow_add]
      congr 1
      omega
    have hsplit : x.val % 2 ^ (128 - n) = x.Lo % 2 ^ (128 - n) := by
      rw [Uint128.val, hpow, ← Nat.mul_assoc]
      have h3 : x.Hi * 2 ^ (128 - n) * 2 ^ (64 - (128 - n)) + x.Lo
          = 2 ^ (128 - n) * (x.Hi * 2 ^ (64 - (128 - n))) + x.Lo := by ring
      rw [h3, Nat.mul_add_mod]
    have hr : x.Lo % 2 ^ (128 - n) ≤ x.Lo := Nat.mod_le _ _
    simp only [Uint128.maskN, if_neg (show ¬ (n ≤ 64) by omega)]
    rw [hsplit]
    simp only [Uint128.wf, Uint128.val]
    refine ⟨⟨h1, by omega⟩, ?_⟩
    omega

/-- The masked value is a multiple of the host-bit range. -/
theorem maskN_aligned {x : Uint128} (hx : x.wf) {n : Nat} (hn : n ≤ 128) :
    (x.maskN n).val % 2 ^ (128 - n) = 0 := by
  rw [(Uint128.maskN_spec hx hn).2]
  have h1 := Nat.div_add_mod x.val (2 ^ (128 - n))
  have h2 : x.val - x.val % 2 ^ (128 - n) = 2 ^ (128 - n) * (x.val / 2 ^ (128 - n)) := by
    omega
  rw [h2]
  exact Nat.mul_mod_right _ _


/-! ### Bit-level facts: trailing zeros, complement, popcount, bitmaps -/

theorem tzAux_spec (fuel : Nat) : ∀ x : Nat, x % 2 ^ fuel ≠ 0 →
    tzAux fuel x < fuel ∧ x.testBit (tzAux fuel x) = true ∧
      ∀ j, j < tzAux fuel x → x.testBit j = false := by
  induction fuel with
  | zero =>
    intro x hx
    exact absurd (Nat.mod_one x) hx
  | succ f ih =>
    intro x hx
    by_cases h2 : x % 2 = 1
    · simp only [tzAux, if_pos h2]
      refine ⟨by omega, by simp [h2], by omega⟩
    · have hx2 : x % 2 = 0 := by omega
      have hmod : x % 2 ^ (f + 1) = x % 2 + 2 * (x / 2 % 2 ^ f) := by
        rw [pow_succ, Nat.mul_comm (2 ^ f) 2, Nat.mod_mul]
      have hdiv : x / 2 % 2 ^ f ≠ 0 := by
        intro h0
        rw [hmod, hx2, h0] at hx
        simp at hx
      obtain ⟨ih1, ih2, ih3⟩ := ih (x / 2) hdiv
      simp only [tzAux, if_neg h2]
      refine ⟨by omega, ?_, ?_⟩
      · rw [Nat.testBit_add_one]
        exact ih2
      · intro j hj
        cases j with
        | zero => simp [hx2]
        | succ j2 =>
          rw [Nat.testBit_add_one]
          exact ih3 j2 (by omega)

theorem compl64_lt {x : Nat} (hx : x < 2 ^ 64) : compl64 x < 2 ^ 64 :=
  Nat.xor_lt_two_pow hx (by rw [W_def]; omega)

theorem compl64_testBit {x : Nat} (hx : x < 2 ^ 64) (i : Nat) :
    (compl64 x).testBit i = (decide (i < 64) && !x.testBit i) := by
  unfold compl64
  rw [Nat.testBit_xor, show W - 1 = 2 ^ 64 - 1 from rfl, Nat.testBit_two_pow_sub_one]
  by_cases hi : i < 64
  · simp [hi, Bool.xor_comm]
  · have hbit : x.testBit i = false :=
      Nat.testBit_lt_two_pow
        (lt_of_lt_of_le hx (Nat.pow_le_pow_right (by norm_num) (by omega)))
    simp [hi, hbit]

theorem compl64_eq_zero_iff {x : Nat} : compl64 x = 0 ↔ x = W - 1 := by
  unfold compl64
  exact Nat.xor_eq_zero

/-- `tz64` of a word's complement finds the lowest zero bit of the word. -/
theorem tz64_compl_spec {w : Nat} (hw : w < 2 ^ 64) (hne : compl64 w ≠ 0) :
    tz64 (compl64 w) < 64 ∧ w.testBit (tz64 (compl64 w)) = false ∧
      ∀ j, j < tz64 (compl64 w) → w.testBit j = true := by
  have hlt : compl64 w < 2 ^ 64 := compl64_lt hw
  have hmod : compl64 w % 2 ^ 64 ≠ 0 := by
    rw [Nat.mod_eq_of_lt hlt]
    exact hne
  obtain ⟨h1, h2, h3⟩ := tzAux_spec 64 (compl64 w) hmod
  have h1t : tz64 (compl64 w) < 64 := h1
  have h2t : (compl64 w).testBit (tz64 (compl64 w)) = true := h2
  rw [compl64_testBit hw] at h2t
  refine ⟨h1t, ?_, ?_⟩
  · simpa [h1t] using h2t
  · intro j hj
    have hbj : (compl64 w).testBit j = false := h3 j hj
    rw [compl64_testBit hw] at hbj
    have hj64 : j < 64 := by omega
    simpa [hj64] using hbj

/-- `w` is all-ones on its low 64 bits exactly when the complement is zero. -/
theorem testBit_of_compl_zero {w : Nat} (hw : w < 2 ^ 64) (h0 : compl64 w = 0)
    {i : Nat} (hi : i < 64) : w.testBit i = true := by
  have hw1 : w = W - 1 := compl64_eq_zero_iff.mp h0
  rw [hw1, show W - 1 = 2 ^ 64 - 1 from rfl, Nat.testBit_two_pow_sub_one]
  simpa using hi

theorem popcountAux_eq_sum (fuel : Nat) : ∀ x : Nat,
    popcountAux fuel x = ∑ i ∈ Finset.range fuel, (if x.testBit i then 1 else 0) := by
  induction fuel with
  | zero =>
    intro x
    simp [popcountAux]
  | succ f ih =>
    intro x
    calc popcountAux (f + 1) x = x % 2 + popcountAux f (x / 2) := rfl
      _ = (∑ i ∈ Finset.range f, if (x / 2).testBit i then 1 else 0) + x % 2 := by
          rw [ih]
          omega
      _ = (∑ i ∈ Finset.range f, if x.testBit (i + 1) then 1 else 0)
            + (if x.testBit 0 then 1 else 0) := by
          congr 1
          · exact Finset.sum_congr rfl fun i _ => by rw [Nat.testBit_add_one]
          · rcases Nat.mod_two_eq_zero_or_one x with h | h <;> simp [h]
      _ = ∑ i ∈ Finset.range (f + 1), if x.testBit i then 1 else 0 :=
          (Finset.sum_range_succ' (fun i => if x.testBit i then (1 : Nat) else 0) f).symm

theorem pc64_succ_of_or {w b : Nat} (hb : b < 64) (hbit : w.testBit b = false) :
    pc64 (w ||| 2 ^ b) = pc64 w + 1 := by
  unfold pc64
  rw [popcountAux_eq_sum, popcountAux_eq_sum]
  have hmem : b ∈ Finset.range 64 := Finset.mem_range.mpr hb
  rw [← Finset.add_sum_erase _ _ hmem, ← Finset.add_sum_erase _ _ hmem]
  have h2 : ∀ i ∈ (Finset.range 64).erase b,
      (if (w ||| 2 ^ b).testBit i then (1 : Nat) else 0)
        = (if w.testBit i then 1 else 0) := by
    intro i hi
    have hne : b ≠ i := fun hh => (Finset.mem_erase.mp hi).1 hh.symm
    rw [Nat.testBit_or, Nat.testBit_two_pow]
    simp [hne]
  have e1 : (if (w ||| 2 ^ b).testBit b then (1 : Nat) else 0) = 1 := by
    rw [Nat.testBit_or, Nat.testBit_two_pow]
    simp
  have e2 : (if w.testBit b then (1 : Nat) else 0) = 0 := by simp [hbit]
  rw [Finset.sum_congr rfl h2, e1, e2]
  omega

theorem pc64_pred_of_clear {w b : Nat} (hb : b < 64) (hbit : w.testBit b = true) :
    pc64 (w &&& compl64 (2 ^ b)) + 1 = pc64 w := by
  have hpb : (2 : Nat) ^ b < 2 ^ 64 := Nat.pow_lt_pow_right (by norm_num) hb
  unfold pc64
  rw [popcountAux_eq_sum, popcountAux_eq_sum]
  have hmem : b ∈ Finset.range 64 := Finset.mem_range.mpr hb
  rw [← Finset.add_sum_erase _ _ hmem, ← Finset.add_sum_erase _ _ hmem]
  have h2 : ∀ i ∈ (Finset.range 64).erase b,
      (if (w &&& compl64 (2 ^ b)).testBit i then (1 : Nat) else 0)
        = (if w.testBit i then 1 else 0) := by
    intro i hi
    have hne : b ≠ i := fun hh => (Finset.mem_erase.mp hi).1 hh.symm
    have hi64 : i < 64 := Finset.mem_range.mp (Finset.mem_erase.mp hi).2
    rw [Nat.testBit_and, compl64_testBit hpb, Nat.testBit_two_pow]
    simp [hne, hi64]
  have e1 : (if (w &&& compl64 (2 ^ b)).testBit b then (1 : Nat) else 0) = 0 := by
    rw [Nat.testBit_and, compl64_testBit hpb, Nat.testBit_two_pow]
    simp
  have e2 : (if w.testBit b then (1 : Nat) else 0) = 1 := by simp [hbit]
  rw [Finset.sum_congr rfl h2, e1, e2]
  omega

theorem bmBit_nil (t : Nat) : bmBit [] t = false := by
  simp [bmBit]

theorem bmBit_cons_lt {t : Nat} (ht : t < 64) (w : Nat) (ws : List Nat) :
    bmBit (w :: ws) t = w.testBit t := by
  simp [bmBit, Nat.div_eq_of_lt ht, Nat.mod_eq_of_lt ht]

theorem bmBit_cons_ge {t : Nat} (ht : 64 ≤ t) (w : Nat) (ws : List Nat) :
    bmBit (w :: ws) t = bmBit ws (t - 64) := by
  have h1 : t / 64 = (t - 64) / 64 + 1 := by omega
  have h2 : t % 64 = (t - 64) % 64 := by omega
  simp [bmBit, h1, h2]

theorem bmBit_true_lt {ws : List Nat} {t : Nat} (h : bmBit ws t = true) :
    t < 64 * ws.length := by
  by_contra hc
  push_neg at hc
  have hlen : ws.length ≤ t / 64 := by omega
  rw [bmBit, List.getD_eq_default _ _ hlen] at h
  simp at h

theorem bitsum_eq_sum (ws : List Nat) :
    bitsum ws = ∑ t ∈ Finset.range (64 * ws.length), (if bmBit ws t then (1 : Nat) else 0) := by
  induction ws with
  | nil => simp [bitsum]
  | cons w ws ih =>
    have hlen : 64 * (w :: ws).length = 64 + 64 * ws.length := by
      rw [List.length_cons]
      ring
    have e1 : pc64 w
        = ∑ t ∈ Finset.range 64, if bmBit (w :: ws) t then (1 : Nat) else 0 := by
      rw [show pc64 w
            = ∑ i ∈ Finset.range 64, (if w.testBit i then (1 : Nat) else 0)
          from popcountAux_eq_sum 64 w]
      exact Finset.sum_congr rfl fun i hi => by
        rw [bmBit_cons_lt (Finset.mem_range.mp hi)]
    have e2 : bitsum ws
        = ∑ t ∈ Finset.range (64 * ws.length),
            if bmBit (w :: ws) (64 + t) then (1 : Nat) else 0 := by
      rw [ih]
      exact Finset.sum_congr rfl fun i _ => by
        rw [bmBit_cons_ge (by omega), Nat.add_sub_cancel_left]
    calc bitsum (w :: ws) = pc64 w + bitsum ws := rfl
      _ = (∑ t ∈ Finset.range 64, if bmBit (w :: ws) t then (1 : Nat) else 0)
            + (∑ t ∈ Finset.range (64 * ws.length),
                if bmBit (w :: ws) (64 + t) then (1 : Nat) else 0) := by
          rw [e1, e2]
      _ = ∑ t ∈ Finset.range (64 + 64 * ws.length),
            if bmBit (w :: ws) t then (1 : Nat) else 0 := by
          rw [Finset.sum_range_add]
      _ = ∑ t ∈ Finset.range (64 * (w :: ws).length),
            if bmBit (w :: ws) t then (1 : Nat) else 0 := by rw [hlen]

theorem bitsum_le_of_bounded {ws : List Nat} {s : Nat}
    (hdead : ∀ t, bmBit ws t = true → t < s) : bitsum ws ≤ s := by
  rw [bitsum_eq_sum]
  calc (∑ t ∈ Finset.range (64 * ws.length), if bmBit ws t then (1 : Nat) else 0)
      = ((Finset.range (64 * ws.length)).filter (fun t => bmBit ws t)).card := by
        rw [Finset.sum_boole]
        simp
    _ ≤ (Finset.range s).card := Finset.card_le_card (by
        intro t ht
        simp only [Finset.mem_filter, Finset.mem_range] at ht
        exact Finset.mem_range.mpr (hdead t ht.2))
    _ = s := Finset.card_range s

theorem bitsum_lt_of_free {ws : List Nat} {s t0 : Nat}
    (hdead : ∀ t, bmBit ws t = true → t < s)
    (ht0 : t0 < s) (hfree : bmBit ws t0 = false) : bitsum ws < s := by
  rw [bitsum_eq_sum]
  have hsub : (Finset.range (64 * ws.length)).filter (fun t => bmBit ws t)
      ⊆ (Finset.range s).erase t0 := by
    intro t ht
    simp only [Finset.mem_filter, Finset.mem_range] at ht
    refine Finset.mem_erase.mpr ⟨?_, Finset.mem_range.mpr (hdead t ht.2)⟩
    intro heq
    rw [heq, hfree] at ht
    exact absurd ht.2 (by simp)
  calc (∑ t ∈ Finset.range (64 * ws.length), if bmBit ws t then (1 : Nat) else 0)
      = ((Finset.range (64 * ws.length)).filter (fun t => bmBit ws t)).card := by
        rw [Finset.sum_boole]
        simp
    _ ≤ ((Finset.range s).erase t0).card := Finset.card_le_card hsub
    _ = s - 1 := by rw [Finset.card_erase_of_mem (Finset.mem_range.mpr ht0), Finset.card_range]
    _ < s := by omega

theorem bmBit_set {ws : List Nat} : ∀ {wi : Nat}, wi < ws.length → ∀ (v t : Nat),
    bmBit (ws.set wi v) t
      = if t / 64 = wi then v.testBit (t % 64) else bmBit ws t := by
  induction ws with
  | nil =>
    intro wi hwi
    simp at hwi
  | cons w ws ih =>
    intro wi hwi v t
    cases wi with
    | zero =>
      by_cases ht : t < 64
      · simp only [List.set]
        rw [bmBit_cons_lt ht, if_pos (by omega), Nat.mod_eq_of_lt ht]
      · simp only [List.set]
        rw [bmBit_cons_ge (by omega), bmBit_cons_ge (by omega), if_neg (by omega)]
    | succ wi2 =>
      have hwi2 : wi2 < ws.length := by simpa using hwi
      by_cases ht : t < 64
      · simp only [List.set]
        rw [bmBit_cons_lt ht, bmBit_cons_lt ht, if_neg (by omega)]
      · simp only [List.set]
        rw [bmBit_cons_ge (by omega), bmBit_cons_ge (by omega), ih hwi2]
        have hiff : t / 64 = wi2 + 1 ↔ (t - 64) / 64 = wi2 := by omega
        by_cases hc : (t - 64) / 64 = wi2
        · rw [if_pos hc, if_pos (hiff.mpr hc)]
          congr 1
          omega
        · rw [if_neg hc, if_neg (fun hh => hc (hiff.mp hh))]

theorem bitsum_set {ws : List Nat} : ∀ {wi : Nat}, wi < ws.length → ∀ v : Nat,
    bitsum (ws.set wi v) + pc64 (ws.getD wi 0) = bitsum ws + pc64 v := by
  induction ws with
  | nil =>
    intro wi hwi
    simp at hwi
  | cons w ws ih =>
    intro wi hwi v
    cases wi with
    | zero =>
      show bitsum (v :: ws) + pc64 w = bitsum (w :: ws) + pc64 v
      show pc64 v + bitsum ws + pc64 w = pc64 w + bitsum ws + pc64 v
      omega
    | succ wi2 =>
      have hwi2 : wi2 < ws.length := by simpa using hwi
      show bitsum (w :: ws.set wi2 v) + pc64 (ws.getD wi2 0) = _
      show pc64 w + bitsum (ws.set wi2 v) + pc64 (ws.getD wi2 0)
        = pc64 w + bitsum ws + pc64 v
      have hih := ih hwi2 v
      omega


/-! ### Characterization of the `allocBit` word scan -/

theorem bitsum_pos {ws : List Nat} {t : Nat} (h : bmBit ws t = true) :
    1 ≤ bitsum ws := by
  by_contra hc
  push_neg at hc
  have h0 : bitsum ws = 0 := by omega
  rw [bitsum_eq_sum] at h0
  have hz := (Finset.sum_eq_zero_iff).mp h0 t (Finset.mem_range.mpr (bmBit_true_lt h))
  rw [h] at hz
  simp at hz

/-- If the scan reports no free bit, every in-range offset below `size` is set. -/
theorem allocWords_none {size : Nat} : ∀ (ws : List Nat) (wi : Nat),
    (∀ w ∈ ws, w < 2 ^ 64) → allocWords size wi ws = none →
    ∀ j, j < 64 * ws.length → wi * 64 + j < size → bmBit ws j = true := by
  intro ws
  induction ws with
  | nil =>
    intro wi _ _ j hj
    simp at hj
  | cons w rest ih =>
    intro wi hwf h j hj hjs
    have hw : w < 2 ^ 64 := hwf w (by simp)
    have hwfr : ∀ u ∈ rest, u < 2 ^ 64 := fun u hu => hwf u (by simp [hu])
    simp only [allocWords] at h
    split_ifs at h with hc hsz
    · -- a zero bit exists in `w` but its index is ≥ size: skip the word
      obtain ⟨htz1, htz2, htz3⟩ := tz64_compl_spec hw hc
      rcases hrec : allocWords size (wi + 1) rest with _ | pr
      · by_cases hj64 : j < 64
        · rw [bmBit_cons_lt hj64]
          exact htz3 j (by omega)
        · push_neg at hj64
          rw [bmBit_cons_ge hj64]
          refine ih (wi + 1) hwfr hrec (j - 64) ?_ ?_
          · simp only [List.length_cons] at hj
            omega
          · omega
      · rw [hrec] at h
        simp at h
    · -- `w` is saturated: recurse
      rcases hrec : allocWords size (wi + 1) rest with _ | pr
      · by_cases hj64 : j < 64
        · rw [bmBit_cons_lt hj64]
          push_neg at hc
          exact testBit_of_compl_zero hw hc (by omega)
        · push_neg at hj64
          rw [bmBit_cons_ge hj64]
          refine ih (wi + 1) hwfr hrec (j - 64) ?_ ?_
          · simp only [List.length_cons] at hj
            omega
          · omega
      · rw [hrec] at h
        simp at h


/-- If the scan returns `(idx, ws2)`: `idx` is the least free in-range offset
below `size`, and `ws2` is `ws` with exactly that bit set. -/
theorem allocWords_some {size : Nat} : ∀ (ws : List Nat) (wi idx : Nat) (ws2 : List Nat),
    (∀ w ∈ ws, w < 2 ^ 64) → allocWords size wi ws = some (idx, ws2) →
    ∃ j, idx = wi * 64 + j ∧ j < 64 * ws.length ∧ wi * 64 + j < size ∧
      bmBit ws j = false ∧
      (∀ j2, j2 < j → wi * 64 + j2 < size → bmBit ws j2 = true) ∧
      ws2.length = ws.length ∧ (∀ w ∈ ws2, w < 2 ^ 64) ∧
      bmBit ws2 j = true ∧ (∀ j2, j2 ≠ j → bmBit ws2 j2 = bmBit ws j2) ∧
      bitsum ws2 = bitsum ws + 1 := by
  intro ws
  induction ws with
  | nil =>
    intro wi idx ws2 _ h
    simp [allocWords] at h
  | cons w rest ih =>
    intro wi idx ws2 hwf h
    have hw : w < 2 ^ 64 := hwf w (by simp)
    have hwfr : ∀ u ∈ rest, u < 2 ^ 64 := fun u hu => hwf u (by simp [hu])
    simp only [allocWords] at h
    split_ifs at h with hc hsz
    · -- the word has a free bit, but only at offsets ≥ size: skip it
      obtain ⟨htz1, htz2, htz3⟩ := tz64_compl_spec hw hc
      rcases hrec : allocWords size (wi + 1) rest with _ | pr
      · rw [hrec] at h
        simp at h
      · obtain ⟨r, rest2⟩ := pr
        rw [hrec] at h
        simp only [Option.some.injEq, Prod.mk.injEq] at h
        obtain ⟨hidx, hws2⟩ := h
        obtain ⟨j, hj1, hj2, hj3, hj4, hj5, hj6, hj7, hj8, hj9, hj10⟩ :=
          ih (wi + 1) r rest2 hwfr hrec
        refine ⟨64 + j, by omega, ?_, by omega, ?_, ?_, ?_, ?_, ?_, ?_, ?_⟩
        · simp only [List.length_cons]
          omega
        · rw [bmBit_cons_ge (by omega)]
          simpa using hj4
        · intro j2 hj2lt hj2s
          by_cases hj264 : j2 < 64
          · rw [bmBit_cons_lt hj264]
            exact htz3 j2 (by omega)
          · push_neg at hj264
            rw [bmBit_cons_ge hj264]
            exact hj5 (j2 - 64) (by omega) (by omega)
        · rw [← hws2, List.length_cons, List.length_cons, hj6]
        · rw [← hws2]
          intro u hu
          rcases List.mem_cons.mp hu with hu | hu
          · exact hu ▸ hw
          · exact hj7 u hu
        · rw [← hws2, bmBit_cons_ge (by omega)]
          simpa using hj8
        · intro j2 hne
          rw [← hws2]
          by_cases hj264 : j2 < 64
          · rw [bmBit_cons_lt hj264, bmBit_cons_lt hj264]
          · push_neg at hj264
            rw [bmBit_cons_ge hj264, bmBit_cons_ge hj264]
            exact hj9 (j2 - 64) (by omega)
        · rw [← hws2]
          show pc64 w + bitsum rest2 = pc64 w + bitsum rest + 1
          omega
    · -- found: the lowest zero bit of `w` is a valid offset
      obtain ⟨htz1, htz2, htz3⟩ := tz64_compl_spec hw hc
      rw [Nat.one_shiftLeft] at h
      simp only [Option.some.injEq, Prod.mk.injEq] at h
      obtain ⟨hidx, hws2⟩ := h
      have hor : w ||| 2 ^ tz64 (compl64 w) < 2 ^ 64 :=
        Nat.or_lt_two_pow hw (Nat.pow_lt_pow_right (by norm_num) htz1)
      refine ⟨tz64 (compl64 w), by omega, ?_, by omega, ?_, ?_, ?_, ?_, ?_, ?_, ?_⟩
      · simp only [List.length_cons]
        omega
      · rw [bmBit_cons_lt htz1]
        exact htz2
      · intro j2 hj2lt _
        rw [bmBit_cons_lt (by omega)]
        exact htz3 j2 hj2lt
      · rw [← hws2, List.length_cons, List.length_cons]
      · rw [← hws2]
        intro u hu
        rcases List.mem_cons.mp hu with hu | hu
        · exact hu ▸ hor
        · exact hwfr u hu
      · rw [← hws2, bmBit_cons_lt htz1, Nat.testBit_or, Nat.testBit_two_pow]
        simp
      · intro j2 hne
        rw [← hws2]
        by_cases hj264 : j2 < 64
        · rw [bmBit_cons_lt hj264, bmBit_cons_lt hj264, Nat.testBit_or,
            Nat.testBit_two_pow, decide_eq_false (by omega : ¬ tz64 (compl64 w) = j2)]
          simp
        · push_neg at hj264
          rw [bmBit_cons_ge hj264, bmBit_cons_ge hj264]
      · rw [← hws2]
        show pc64 (w ||| 2 ^ tz64 (compl64 w)) + bitsum rest = pc64 w + bitsum rest + 1
        rw [pc64_succ_of_or htz1 htz2]
        omega
    · -- the word is saturated: skip it
      push_neg at hc
      rcases hrec : allocWords size (wi + 1) rest with _ | pr
      · rw [hrec] at h
        simp at h
      · obtain ⟨r, rest2⟩ := pr
        rw [hrec] at h
        simp only [Option.some.injEq, Prod.mk.injEq] at h
        obtain ⟨hidx, hws2⟩ := h
        obtain ⟨j, hj1, hj2, hj3, hj4, hj5, hj6, hj7, hj8, hj9, hj10⟩ :=
          ih (wi + 1) r rest2 hwfr hrec
        refine ⟨64 + j, by omega, ?_, by omega, ?_, ?_, ?_, ?_, ?_, ?_, ?_⟩
        · simp only [List.length_cons]
          omega
        · rw [bmBit_cons_ge (by omega)]
          simpa using hj4
        · intro j2 hj2lt hj2s
          by_cases hj264 : j2 < 64
          · rw [bmBit_cons_lt hj264]
            exact testBit_of_compl_zero hw hc hj264
          · push_neg at hj264
            rw [bmBit_cons_ge hj264]
            exact hj5 (j2 - 64) (by omega) (by omega)
        · rw [← hws2, List.length_cons, List.length_cons, hj6]
        · rw [← hws2]
          intro u hu
          rcases List.mem_cons.mp hu with hu | hu
          · exact hu ▸ hw
          · exact hj7 u hu
        · rw [← hws2, bmBit_cons_ge (by omega)]
          simpa using hj8
        · intro j2 hne
          rw [← hws2]
          by_cases hj264 : j2 < 64
          · rw [bmBit_cons_lt hj264, bmBit_cons_lt hj264]
          · push_neg at hj264
            rw [bmBit_cons_ge hj264, bmBit_cons_ge hj264]
            exact hj9 (j2 - 64) (by omega)
        · rw [← hws2]
          show pc64 w + bitsum rest2 = pc64 w + bitsum rest + 1
          omega


/-! ### Block-level specifications -/

/-- Well-formedness of a block as built and maintained by the library:
`uint64` words, the word count of `newBlock`, no set bit at or above `size`,
and the `freeCount` invariant. -/
def WFBlock (b : Block) : Prop :=
  (∀ w ∈ b.used, w < 2 ^ 64) ∧
  b.used.length = (b.size + 63) / 64 ∧
  b.size < 2 ^ 64 ∧
  (∀ t, t < 64 * b.used.length → bmBit b.used t = true → t < b.size) ∧
  b.freeCount = b.size - bitsum b.used ∧
  bitsum b.used ≤ b.size

instance (b : Block) : Decidable (WFBlock b) := by
  unfold WFBlock
  infer_instance

theorem WFBlock.dead {b : Block} (h : WFBlock b) :
    ∀ t, bmBit b.used t = true → t < b.size :=
  fun t ht => h.2.2.2.1 t (bmBit_true_lt ht) ht

theorem WFBlock.size_le {b : Block} (h : WFBlock b) :
    b.size ≤ 64 * b.used.length := by
  have h2 := h.2.1
  omega

theorem getD_replicate_zero (L : Nat) : ∀ i : Nat, (List.replicate L (0 : Nat)).getD i 0 = 0 := by
  induction L with
  | zero => intro i; simp
  | succ L ih =>
    intro i
    rw [List.replicate_succ]
    cases i with
    | zero => simp
    | succ i2 => simpa using ih i2

theorem bmBit_replicate_zero (L t : Nat) : bmBit (List.replicate L 0) t = false := by
  rw [bmBit, getD_replicate_zero]
  simp

theorem pc64_zero : pc64 0 = 0 := by decide

theorem bitsum_replicate_zero (L : Nat) : bitsum (List.replicate L 0) = 0 := by
  induction L with
  | zero => rfl
  | succ L ih =>
    rw [List.replicate_succ]
    show pc64 0 + bitsum (List.replicate L 0) = 0
    rw [pc64_zero, ih]

theorem newBlock_wf {base : Uint128} {size : Nat} (hsize : size < 2 ^ 64) :
    WFBlock (newBlock base size) := by
  refine ⟨?_, by simp [newBlock], hsize, ?_, ?_, ?_⟩
  · intro w hw
    rw [List.eq_of_mem_replicate hw]
    positivity
  · intro t _ hbit
    rw [show (newBlock base size).used = List.replicate ((size + 63) / 64) 0 from rfl,
      bmBit_replicate_zero] at hbit
    exact absurd hbit (by simp)
  · show size = size - bitsum (List.replicate ((size + 63) / 64) 0)
    rw [bitsum_replicate_zero]
    omega
  · show bitsum (List.replicate ((size + 63) / 64) 0) ≤ size
    rw [bitsum_replicate_zero]
    exact Nat.zero_le _

/-- Full specification of a successful `allocBit`. -/
theorem allocBit_ok {b : Block} (hwf : WFBlock b) {idx : Nat} {b2 : Block}
    (h : b.allocBit = .ok (idx, b2)) :
    idx < b.size ∧ bmBit b.used idx = false ∧
    (∀ u, u < b.size → bmBit b.used u = false → idx ≤ u) ∧
    b2.prefixIP = b.prefixIP ∧ b2.size = b.size ∧
    b2.used.length = b.used.length ∧
    bmBit b2.used idx = true ∧ (∀ u, u ≠ idx → bmBit b2.used u = bmBit b.used u) ∧
    bitsum b2.used = bitsum b.used + 1 ∧
    WFBlock b2 ∧
    b2.freeCount + 1 = b.freeCount := by
  obtain ⟨hwords, hlen, hsize, hdead, hfc, hbs⟩ := hwf
  rcases haw : allocWords b.size 0 b.used with _ | pr
  · unfold Block.allocBit at h
    rw [haw] at h
    simp at h
  · obtain ⟨i2, ws2⟩ := pr
    unfold Block.allocBit at h
    rw [haw] at h
    simp only [Except.ok.injEq, Prod.mk.injEq] at h
    obtain ⟨hi2, hb2⟩ := h
    have hi2s : idx = i2 := hi2.symm
    subst hi2s
    obtain ⟨j, hj1, hj2, hj3, hj4, hj5, hj6, hj7, hj8, hj9, hj10⟩ :=
      allocWords_some b.used 0 idx ws2 hwords haw
    have hjidx : idx = j := by omega
    subst hjidx
    have hdead2 : ∀ t, bmBit b.used t = true → t < b.size := by
      intro t ht
      exact hdead t (bmBit_true_lt ht) ht
    have hbslt : bitsum b.used < b.size :=
      bitsum_lt_of_free hdead2 (by omega) hj4
    have hfclt : b.freeCount < 2 ^ 64 := by omega
    have hfcpos : 1 ≤ b.freeCount := by omega
    have hfc2 : ((b.freeCount + (W - 1)) % W) = b.freeCount - 1 := by
      rw [W_def]
      omega
    refine ⟨by omega, hj4, ?_, ?_, ?_, ?_, ?_, ?_, ?_, ?_, ?_⟩
    · intro u hu hufree
      by_contra hc
      push_neg at hc
      rw [hj5 u (by omega) (by omega)] at hufree
      exact absurd hufree (by simp)
    · rw [← hb2]
    · rw [← hb2]
    · rw [← hb2]
      exact hj6
    · rw [← hb2]
      exact hj8
    · intro u hu
      rw [← hb2]
      exact hj9 u hu
    · rw [← hb2]
      exact hj10
    · rw [← hb2]
      refine ⟨hj7, ?_, hsize, ?_, ?_, ?_⟩
      · show ws2.length = (b.size + 63) / 64
        rw [hj6, hlen]
      · intro t _ ht
        by_cases hti : t = idx
        · show t < b.size
          omega
        · rw [hj9 t hti] at ht
          exact hdead2 t ht
      · show (b.freeCount + (W - 1)) % W = b.size - bitsum ws2
        rw [hfc2, hj10]
        omega
      · show bitsum ws2 ≤ b.size
        rw [hj10]
        omega
    · rw [← hb2]
      show (b.freeCount + (W - 1)) % W + 1 = b.freeCount
      rw [hfc2]
      omega

/-- `allocBit` fails only with `BlockFull`, and only when every offset below
`size` is allocated. -/
theorem allocBit_error {b : Block} (hwf : WFBlock b) {e : Err}
    (h : b.allocBit = .error e) :
    e = .blockFull ∧ ∀ t, t < b.size → bmBit b.used t = true := by
  rcases haw : allocWords b.size 0 b.used with _ | pr
  · unfold Block.allocBit at h
    rw [haw] at h
    simp only [Except.error.injEq] at h
    refine ⟨h.symm, ?_⟩
    intro t ht
    refine allocWords_none b.used 0 hwf.1 haw t ?_ (by omega)
    have := hwf.size_le
    omega
  · obtain ⟨i2, ws2⟩ := pr
    unfold Block.allocBit at h
    rw [haw] at h
    simp at h

/-- `allocBit` succeeds whenever a free offset below `size` exists. -/
theorem allocBit_isOk {b : Block} (hwf : WFBlock b) {t : Nat}
    (ht : t < b.size) (hfree : bmBit b.used t = false) :
    ∃ idx b2, b.allocBit = .ok (idx, b2) := by
  rcases haw : allocWords b.size 0 b.used with _ | pr
  · exfalso
    have hset := allocWords_none b.used 0 hwf.1 haw t
      (by have := hwf.size_le; omega) (by omega)
    rw [hfree] at hset
    exact absurd hset (by simp)
  · obtain ⟨i2, ws2⟩ := pr
    refine ⟨i2, { b with used := ws2, freeCount := (b.freeCount + (W - 1)) % W }, ?_⟩
    unfold Block.allocBit
    rw [haw]

/-- Full specification of a successful `releaseBit`. -/
theorem releaseBit_ok {b : Block} (hwf : WFBlock b) {idx : Nat} {b2 : Block}
    (h : b.releaseBit idx = .ok b2) :
    idx < b.size ∧ bmBit b.used idx = true ∧
    b2.prefixIP = b.prefixIP ∧ b2.size = b.size ∧
    b2.used.length = b.used.length ∧
    bmBit b2.used idx = false ∧ (∀ u, u ≠ idx → bmBit b2.used u = bmBit b.used u) ∧
    bitsum b2.used + 1 = bitsum b.used ∧ WFBlock b2 ∧
    b2.freeCount = b.freeCount + 1 := by
  obtain ⟨hwords, hlen, hsize, hdead, hfc, hbs⟩ := hwf
  unfold Block.releaseBit at h
  simp only [Nat.one_shiftLeft] at h
  by_cases h1 : b.size ≤ idx
  · rw [if_pos h1] at h
    exact absurd h (by simp)
  rw [if_neg h1] at h
  by_cases h2 : b.used.getD (idx / 64) 0 &&& 2 ^ (idx % 64) = 0
  · rw [if_pos h2] at h
    exact absurd h (by simp)
  rw [if_neg h2] at h
  simp only [Except.ok.injEq] at h
  subst h
  have hidx : idx < b.size := by omega
  have hw : b.used.getD (idx / 64) 0 &&& 2 ^ (idx % 64) ≠ 0 := h2
  rw [Nat.and_two_pow] at hw
  have hbit : (b.used.getD (idx / 64) 0).testBit (idx % 64) = true := by
    by_contra hb
    rw [Bool.not_eq_true] at hb
    rw [hb] at hw
    simp at hw
  have hbm : bmBit b.used idx = true := hbit
  have hwi : idx / 64 < b.used.length := by omega
  have hmod : idx % 64 < 64 := Nat.mod_lt _ (by norm_num)
  have hvset : ∀ t, bmBit (b.used.set (idx / 64)
      (b.used.getD (idx / 64) 0 &&& compl64 (2 ^ (idx % 64)))) t
      = if t / 64 = idx / 64
        then ((b.used.getD (idx / 64) 0 &&& compl64 (2 ^ (idx % 64))).testBit (t % 64))
        else bmBit b.used t :=
    fun t => bmBit_set hwi _ t
  have hcpl : (2 : Nat) ^ (idx % 64) < 2 ^ 64 :=
    Nat.pow_lt_pow_right (by norm_num) hmod
  have hvbit : ∀ u, (b.used.getD (idx / 64) 0 &&& compl64 (2 ^ (idx % 64))).testBit u
      = ((b.used.getD (idx / 64) 0).testBit u
          && (decide (u < 64) && !decide (idx % 64 = u))) := by
    intro u
    rw [Nat.testBit_and, compl64_testBit hcpl, Nat.testBit_two_pow]
  have hbslt : 1 ≤ bitsum b.used := bitsum_pos hbm
  have hpcl : pc64 (b.used.getD (idx / 64) 0 &&& compl64 (2 ^ (idx % 64))) + 1
      = pc64 (b.used.getD (idx / 64) 0) := pc64_pred_of_clear hmod hbit
  have hbsset := bitsum_set hwi (b.used.getD (idx / 64) 0 &&& compl64 (2 ^ (idx % 64)))
  have hfc1 : (b.freeCount + 1) % W = b.freeCount + 1 := by
    rw [W_def]
    omega
  have hdeadset : ∀ t, bmBit (b.used.set (idx / 64)
      (b.used.getD (idx / 64) 0 &&& compl64 (2 ^ (idx % 64)))) t = true → t < b.size := by
    intro t hbit2
    rw [hvset] at hbit2
    by_cases hc : t / 64 = idx / 64
    · rw [if_pos hc, hvbit] at hbit2
      have hwt : (b.used.getD (idx / 64) 0).testBit (t % 64) = true := by
        by_contra hb
        rw [Bool.not_eq_true] at hb
        rw [hb] at hbit2
        simp at hbit2
      have hbm2 : bmBit b.used t = true := by
        show (b.used.getD (t / 64) 0).testBit (t % 64) = true
        rw [hc]
        exact hwt
      exact hdead t (bmBit_true_lt hbm2) hbm2
    · rw [if_neg hc] at hbit2
      exact hdead t (bmBit_true_lt hbit2) hbit2
  refine ⟨hidx, hbm, rfl, rfl, ?_, ?_, ?_, ?_, ?_, ?_⟩
  · show (b.used.set _ _).length = b.used.length
    simp
  · show bmBit (b.used.set _ _) idx = false
    rw [hvset, if_pos rfl, hvbit]
    simp
  · intro u hu
    show bmBit (b.used.set _ _) u = bmBit b.used u
    rw [hvset]
    by_cases hc : u / 64 = idx / 64
    · rw [if_pos hc, hvbit]
      have hne : ¬ (idx % 64 = u % 64) := by omega
      have hu64 : u % 64 < 64 := Nat.mod_lt _ (by norm_num)
      rw [show bmBit b.used u = (b.used.getD (u / 64) 0).testBit (u % 64) from rfl, hc]
      simp [hne, hu64]
    · rw [if_neg hc]
  · show bitsum (b.used.set _ _) + 1 = bitsum b.used
    omega
  · refine ⟨?_, ?_, hsize, ?_, ?_, ?_⟩
    · intro w hw2
      rcases List.mem_or_eq_of_mem_set hw2 with hmem | heq
      · exact hwords w hmem
      · rw [heq]
        exact Nat.and_lt_two_pow _ (compl64_lt hcpl)
    · show (b.used.set _ _).length = _
      simp [hlen]
    · intro t _ hbit2
      exact hdeadset t hbit2
    · show (b.freeCount + 1) % W = b.size - bitsum (b.used.set _ _)
      rw [hfc1]
      omega
    · show bitsum (b.used.set _ _) ≤ b.size
      omega
  · show (b.freeCount + 1) % W = b.freeCount + 1
    exact hfc1

/-- `releaseBit` succeeds on any in-range allocated offset. -/
theorem releaseBit_isOk {b : Block} {idx : Nat} (hidx : idx < b.size)
    (hbit : bmBit b.used idx = true) : ∃ b2, b.releaseBit idx = .ok b2 := by
  unfold Block.releaseBit
  simp only [Nat.one_shiftLeft]
  rw [if_neg (show ¬ b.size ≤ idx by omega)]
  have hw : ¬ (b.used.getD (idx / 64) 0 &&& 2 ^ (idx % 64) = 0) := by
    rw [Nat.and_two_pow, show (b.used.getD (idx / 64) 0).testBit (idx % 64) = true from hbit]
    simp
  rw [if_neg hw]
  exact ⟨_, rfl⟩

/-- `bitToIP` adds the offset to the block base. -/
theorem bitToIP_spec {b : Block} (hpre : b.prefixIP.wf) {idx : Nat} (hidx : idx < 2 ^ 64)
    (hbound : b.prefixIP.val + idx < 2 ^ 128) :
    b.bitToIP idx = ofVal (b.prefixIP.val + idx) := by
  obtain ⟨h1, h2⟩ := hpre
  simp only [Uint128.val] at hbound
  simp only [Block.bitToIP, add64, ofVal, Uint128.val, W_def, Uint128.mk.injEq]
  constructor <;> omega

theorem sub64_of_ge {x y b : Nat} (h : y + b ≤ x) : sub64 x y b = (x - (y + b), 0) :=
  if_neg (by omega)

theorem sub64_of_lt {x y b : Nat} (h : x < y + b) : sub64 x y b = (x + W - (y + b), 1) :=
  if_pos h

/-- `ipToBit` returns the exact offset of an in-block address. -/
theorem ipToBit_ok {b : Block} (hpre : b.prefixIP.wf) {ip : Uint128} (hip : ip.wf)
    (hsize : b.size < 2 ^ 64)
    (hge : b.prefixIP.val ≤ ip.val) (hlt : ip.val - b.prefixIP.val < b.size) :
    b.ipToBit ip = .ok (ip.val - b.prefixIP.val) := by
  obtain ⟨h1, h2⟩ := hpre
  obtain ⟨h3, h4⟩ := hip
  simp only [Uint128.val] at hge hlt
  by_cases hlo : ip.Lo < b.prefixIP.Lo + 0
  · have e1 : sub64 ip.Lo b.prefixIP.Lo 0 = (ip.Lo + W - (b.prefixIP.Lo + 0), 1) :=
      sub64_of_lt hlo
    have e2 : sub64 ip.Hi b.prefixIP.Hi 1 = (ip.Hi - (b.prefixIP.Hi + 1), 0) :=
      sub64_of_ge (by omega)
    simp only [Block.ipToBit, e1, e2]
    rw [if_neg (by have hW := W_def; omega), if_neg (by have hW := W_def; omega)]
    simp only [Except.ok.injEq, Uint128.val, W_def]
    omega
  · push_neg at hlo
    have e1 : sub64 ip.Lo b.prefixIP.Lo 0 = (ip.Lo - (b.prefixIP.Lo + 0), 0) :=
      sub64_of_ge hlo
    have e2 : sub64 ip.Hi b.prefixIP.Hi 0 = (ip.Hi - (b.prefixIP.Hi + 0), 0) :=
      sub64_of_ge (by omega)
    simp only [Block.ipToBit, e1, e2]
    rw [if_neg (by have hW := W_def; omega), if_neg (by have hW := W_def; omega)]
    simp only [Except.ok.injEq, Uint128.val]
    omega

/-- `ipToBit` produces no error other than `OutOfRange`. -/
theorem ipToBit_error_eq {b : Block} {ip : Uint128} {e : Err}
    (h : b.ipToBit ip = .error e) : e = .outOfRange := by
  simp only [Block.ipToBit] at h
  split_ifs at h <;> simp_all


/-! ### Pool-level invariant -/

/-- The invariant tying a `Pool` to its construction parameters `n`
(network prefix length) and `bp` (block prefix length), maintained by every
operation. -/
def PoolWF (n bp : Nat) (p : Pool) : Prop :=
  n ≤ 128 ∧ n < bp ∧ bp ≤ 128 ∧ bp - n ≤ 63 ∧
  p.hostBits = 128 - bp ∧
  p.blockSize = shl64 1 (128 - bp) ∧
  p.maxBlocks = shl64 1 (bp - n) ∧
  p.networkAddr.wf ∧
  p.networkAddr.val % 2 ^ (128 - n) = 0 ∧
  p.nextBlockIndex ≤ p.maxBlocks ∧
  (∀ bi blk, p.blocks bi = some blk →
      bi < p.nextBlockIndex ∧
      blk.prefixIP = p.networkAddr.add (Uint128.mk 0 bi |>.lsh p.hostBits) ∧
      blk.size = p.blockSize ∧ WFBlock blk) ∧
  (∀ bi ∈ p.freeList, ∃ blk, p.blocks bi = some blk) ∧
  p.blockMask = cidrMask n

theorem shl64_one {k : Nat} (hk : k < 64) : shl64 1 k = 2 ^ k := by
  rw [shl64_of_lt hk, Nat.one_mul, Nat.mod_eq_of_lt]
  exact Nat.pow_lt_pow_right (by norm_num) hk

theorem cidrMaskAux_ne_nil (ones : Nat) : cidrMaskAux 16 ones ≠ [] := by
  unfold cidrMaskAux
  split <;> simp

theorem cidrMask_ne_nil (ones : Nat) : cidrMask ones ≠ [] :=
  cidrMaskAux_ne_nil ones

/-- `maxBlocks` as a power of two. -/
theorem PoolWF.maxBlocks_eq {n bp : Nat} {p : Pool} (hw : PoolWF n bp p) :
    p.maxBlocks = 2 ^ (bp - n) := by
  obtain ⟨h1, h2, h3, h4, h5, h6, h7, _⟩ := hw
  rw [h7, shl64_one (by omega)]

theorem PoolWF.maxBlocks_le {n bp : Nat} {p : Pool} (hw : PoolWF n bp p) :
    p.maxBlocks ≤ 2 ^ 63 := by
  rw [hw.maxBlocks_eq]
  exact Nat.pow_le_pow_right (by norm_num) (by
    obtain ⟨h1, h2, h3, h4, _⟩ := hw
    omega)

/-- `blockSize` is `2^hostBits` truncated to `uint64`: `0` when
`hostBits ≥ 64`, i.e. `bp ≤ 64`, and `2^hostBits` otherwise. -/
theorem PoolWF.blockSize_eq {n bp : Nat} {p : Pool} (hw : PoolWF n bp p) :
    p.blockSize = if 64 < bp then 2 ^ (128 - bp) else 0 := by
  obtain ⟨h1, h2, h3, h4, h5, h6, _⟩ := hw
  rw [h6]
  by_cases hc : 64 < bp
  · rw [if_pos hc, shl64_one (by omega)]
  · rw [if_neg hc, shl64_of_ge (by omega)]

theorem PoolWF.blockSize_le {n bp : Nat} {p : Pool} (hw : PoolWF n bp p) :
    p.blockSize ≤ 2 ^ p.hostBits := by
  rw [hw.blockSize_eq, hw.2.2.2.2.1]
  split
  · exact le_refl _
  · exact Nat.zero_le _

theorem PoolWF.blockSize_lt {n bp : Nat} {p : Pool} (hw : PoolWF n bp p) :
    p.blockSize < 2 ^ 64 := by
  rw [hw.2.2.2.2.2.1]
  exact shl64_lt 1 _

/-- Room above the network address for the whole block range. -/
theorem PoolWF.range_bound {n bp : Nat} {p : Pool} (hw : PoolWF n bp p) :
    p.networkAddr.val + p.maxBlocks * 2 ^ p.hostBits ≤ 2 ^ 128 := by
  obtain ⟨h1, h2, h3, h4, h5, h6, h7, h8, h9, _⟩ := id hw
  rw [hw.maxBlocks_eq, h5]
  have hpow : (2 : Nat) ^ (bp - n) * 2 ^ (128 - bp) = 2 ^ (128 - n) := by
    rw [← pow_add]
    congr 1
    omega
  rw [hpow]
  have hlt : p.networkAddr.val < 2 ^ 128 := Uint128.val_lt h8
  have hsplit := Nat.div_add_mod p.networkAddr.val (2 ^ (128 - n))
  have hq : p.networkAddr.val = 2 ^ (128 - n) * (p.networkAddr.val / 2 ^ (128 - n)) := by
    omega
  have hpow2 : (2 : Nat) ^ (128 - n) * 2 ^ n = 2 ^ 128 := by
    rw [← pow_add]
    congr 1
    omega
  have hqlt : p.networkAddr.val / 2 ^ (128 - n) < 2 ^ n := by
    by_contra hc
    push_neg at hc
    have : 2 ^ (128 - n) * 2 ^ n ≤ 2 ^ (128 - n) * (p.networkAddr.val / 2 ^ (128 - n)) :=
      Nat.mul_le_mul_left _ hc
    rw [hpow2] at this
    omega
  calc p.networkAddr.val + 2 ^ (128 - n)
      = 2 ^ (128 - n) * (p.networkAddr.val / 2 ^ (128 - n) + 1) := by
        rw [Nat.mul_add, Nat.mul_one, ← hq]
    _ ≤ 2 ^ (128 - n) * 2 ^ n := Nat.mul_le_mul_left _ (by omega)
    _ = 2 ^ 128 := hpow2

/-- Value and bounds of a block base address. -/
theorem PoolWF.base_spec {n bp : Nat} {p : Pool} (hw : PoolWF n bp p) {bi : Nat}
    (hbi : bi < p.maxBlocks) :
    (p.networkAddr.add (Uint128.mk 0 bi |>.lsh p.hostBits)).wf ∧
    (p.networkAddr.add (Uint128.mk 0 bi |>.lsh p.hostBits)).val
      = p.networkAddr.val + bi * 2 ^ p.hostBits ∧
    p.networkAddr.val + (bi + 1) * 2 ^ p.hostBits ≤ 2 ^ 128 := by
  have hna : p.networkAddr.wf := hw.2.2.2.2.2.2.2.1
  have hrange := hw.range_bound
  have hbiW : bi < 2 ^ 64 := lt_of_lt_of_le hbi (le_trans hw.maxBlocks_le (by norm_num))
  have hh : p.hostBits < 128 := by
    have h5 := hw.2.2.2.2.1
    have h2 := hw.2.1
    omega
  have hmul : (bi + 1) * 2 ^ p.hostBits ≤ p.maxBlocks * 2 ^ p.hostBits :=
    Nat.mul_le_mul_right _ (by omega)
  have hend : p.networkAddr.val + (bi + 1) * 2 ^ p.hostBits ≤ 2 ^ 128 :=
    le_trans (Nat.add_le_add_left hmul _) hrange
  have hsucc : (bi + 1) * 2 ^ p.hostBits = bi * 2 ^ p.hostBits + 2 ^ p.hostBits := by
    ring
  have hp : (0 : Nat) < 2 ^ p.hostBits := by positivity
  have hbibound : bi * 2 ^ p.hostBits < 2 ^ 128 := by omega
  obtain ⟨hlw, hlv⟩ := lshLo_spec hbiW hh hbibound
  have hsum : p.networkAddr.val + (Uint128.mk 0 bi |>.lsh p.hostBits).val < 2 ^ 128 := by
    rw [hlv]
    omega
  refine ⟨(Uint128.add_spec hna hlw).1, ?_, hend⟩
  rw [Uint128.add_val_of_lt hna hlw (by omega), hlv]


theorem PoolWF.hostBits_eq {n bp : Nat} {p : Pool} (hw : PoolWF n bp p) :
    p.hostBits = 128 - bp := hw.2.2.2.2.1

theorem PoolWF.na_wf {n bp : Nat} {p : Pool} (hw : PoolWF n bp p) :
    p.networkAddr.wf := hw.2.2.2.2.2.2.2.1

theorem PoolWF.na_aligned {n bp : Nat} {p : Pool} (hw : PoolWF n bp p) :
    p.networkAddr.val % 2 ^ (128 - n) = 0 := hw.2.2.2.2.2.2.2.2.1

theorem PoolWF.next_le {n bp : Nat} {p : Pool} (hw : PoolWF n bp p) :
    p.nextBlockIndex ≤ p.maxBlocks := hw.2.2.2.2.2.2.2.2.2.1

theorem PoolWF.blocks_spec {n bp : Nat} {p : Pool} (hw : PoolWF n bp p) :
    ∀ bi blk, p.blocks bi = some blk →
      bi < p.nextBlockIndex ∧
      blk.prefixIP = p.networkAddr.add (Uint128.mk 0 bi |>.lsh p.hostBits) ∧
      blk.size = p.blockSize ∧ WFBlock blk := hw.2.2.2.2.2.2.2.2.2.2.1

theorem PoolWF.freeList_spec {n bp : Nat} {p : Pool} (hw : PoolWF n bp p) :
    ∀ bi ∈ p.freeList, ∃ blk, p.blocks bi = some blk := hw.2.2.2.2.2.2.2.2.2.2.2.1

theorem PoolWF.mask_eq {n bp : Nat} {p : Pool} (hw : PoolWF n bp p) :
    p.blockMask = cidrMask n := hw.2.2.2.2.2.2.2.2.2.2.2.2

/-- Rebuild the invariant after updating the mutable fields. -/
theorem PoolWF.update {n bp : Nat} {p : Pool} (hw : PoolWF n bp p)
    {bks : Nat → Option Block} {fl : List Nat} {next : Nat}
    (hnext2 : next ≤ p.maxBlocks)
    (hbks : ∀ bi blk, bks bi = some blk →
      bi < next ∧
      blk.prefixIP = p.networkAddr.add (Uint128.mk 0 bi |>.lsh p.hostBits) ∧
      blk.size = p.blockSize ∧ WFBlock blk)
    (hfl : ∀ bi ∈ fl, ∃ blk, bks bi = some blk) :
    PoolWF n bp { p with blocks := bks, freeList := fl, nextBlockIndex := next } :=
  ⟨hw.1, hw.2.1, hw.2.2.1, hw.2.2.2.1, hw.hostBits_eq, hw.2.2.2.2.2.1,
    hw.2.2.2.2.2.2.1, hw.na_wf, hw.na_aligned, hnext2, hbks, hfl, hw.mask_eq⟩

/-- The free-list loop cannot hit a missing block when every listed index has
one. -/
theorem allocFLAux_isSome {blocks : Nat → Option Block} :
    ∀ {l : List Nat}, (∀ bi ∈ l, ∃ blk, blocks bi = some blk) →
    ∃ r, allocFLAux blocks l = some r := by
  intro l
  induction l with
  | nil =>
    intro _
    exact ⟨(none, []), rfl⟩
  | cons bi rest ih =>
    intro hmem
    obtain ⟨blk, hblk⟩ := hmem bi (by simp)
    rcases hab : blk.allocBit with e | pr
    · obtain ⟨r, hr⟩ := ih (fun u hu => hmem u (by simp [hu]))
      refine ⟨r, ?_⟩
      simp only [allocFLAux, hblk, hab]
      exact hr
    · obtain ⟨idx, blk2⟩ := pr
      refine ⟨(some (bi, idx, blk2), rest), ?_⟩
      simp only [allocFLAux, hblk, hab]

/-- What a finished free-list loop tells us. -/
theorem allocFLAux_spec {blocks : Nat → Option Block} :
    ∀ {l : List Nat} {o : Option (Nat × Nat × Block)} {rest : List Nat},
    allocFLAux blocks l = some (o, rest) →
    (∀ u ∈ rest, u ∈ l) ∧
    (o = none → rest = []) ∧
    (∀ bi idx blk2, o = some (bi, idx, blk2) →
       bi ∈ l ∧ ∃ blk, blocks bi = some blk ∧ blk.allocBit = .ok (idx, blk2)) := by
  intro l
  induction l with
  | nil =>
    intro o rest h
    simp only [allocFLAux, Option.some.injEq, Prod.mk.injEq] at h
    obtain ⟨ho, hrest⟩ := h
    refine ⟨by simp [← hrest], fun _ => hrest.symm, ?_⟩
    intro bi idx blk2 hbi
    rw [← ho] at hbi
    exact absurd hbi (by simp)
  | cons v rest2 ih =>
    intro o rest h
    simp only [allocFLAux] at h
    rcases hblk : blocks v with _ | blk
    · rw [hblk] at h
      exact absurd h (by simp)
    · rcases hab : blk.allocBit with e | pr
      · simp only [hblk, hab] at h
        obtain ⟨h1, h2, h3⟩ := ih h
        refine ⟨fun u hu => by simp [h1 u hu], h2, ?_⟩
        intro bi idx blk2 hbi
        obtain ⟨hmem, hex⟩ := h3 bi idx blk2 hbi
        exact ⟨by simp [hmem], hex⟩
      · obtain ⟨idx2, blk2⟩ := pr
        simp only [hblk, hab] at h
        simp only [Option.some.injEq, Prod.mk.injEq] at h
        obtain ⟨ho, hrest⟩ := h
        refine ⟨fun u hu => by simp [← hrest] at hu; simp [hu], ?_, ?_⟩
        · intro hono
          rw [← ho] at hono
          exact absurd hono (by simp)
        · intro bi idx blk3 hbi
          rw [← ho] at hbi
          simp only [Option.some.injEq, Prod.mk.injEq] at hbi
          obtain ⟨hb1, hb2, hb3⟩ := hbi
          subst hb1
          subst hb2
          subst hb3
          exact ⟨by simp, blk, hblk, hab⟩


theorem updBlocks_same {m : Nat → Option Block} {k : Nat} {b : Block} :
    updBlocks m k b k = some b := by
  simp [updBlocks]

theorem updBlocks_other {m : Nat → Option Block} {k i : Nat} {b : Block}
    (h : i ≠ k) : updBlocks m k b i = m i := by
  simp [updBlocks, h]

/-- Total specification of `Allocate` on a well-formed pool: no panic, the
invariant and configuration scalars survive, failure is exactly
`PoolExhausted` with `blocks`/`nextBlockIndex` untouched, and success returns
`bitToIP` of an offset of a mapped block. -/
theorem Allocate_spec {n bp : Nat} {p : Pool} (hw : PoolWF n bp p) :
    ∃ r p2, p.Allocate = some (r, p2) ∧ PoolWF n bp p2 ∧
      p2.networkAddr = p.networkAddr ∧ p2.hostBits = p.hostBits ∧
      p2.blockSize = p.blockSize ∧ p2.maxBlocks = p.maxBlocks ∧
      p2.blockMask = p.blockMask ∧
      p.nextBlockIndex ≤ p2.nextBlockIndex ∧
      (∀ e, r = .error e →
        e = .poolExhausted ∧ p2.blocks = p.blocks
          ∧ p2.nextBlockIndex = p.nextBlockIndex ∧ p.maxBlocks ≤ p.nextBlockIndex) ∧
      (∀ a, r = .ok a → ∃ bi idx blk2,
        bi < p.maxBlocks ∧
        p2.blocks bi = some blk2 ∧
        blk2.prefixIP = p.networkAddr.add (Uint128.mk 0 bi |>.lsh p.hostBits) ∧
        blk2.size = p.blockSize ∧ WFBlock blk2 ∧
        a = blk2.bitToIP idx ∧
        (p.blockSize = 0 → idx = 0) ∧
        (0 < p.blockSize → idx < p.blockSize ∧ bmBit blk2.used idx = true)) := by
  have hfl := hw.freeList_spec
  have hflrev : ∀ bi ∈ p.freeList.reverse, ∃ blk, p.blocks bi = some blk :=
    fun bi hbi => hfl bi (List.mem_reverse.mp hbi)
  obtain ⟨⟨o, restRev⟩, haf⟩ := allocFLAux_isSome hflrev
  obtain ⟨hrest, hnone, hsome⟩ := allocFLAux_spec haf
  cases o with
  | some trip =>
    obtain ⟨bi, idx, blk2⟩ := trip
    obtain ⟨hmem, blk, hblk, hab⟩ := hsome bi idx blk2 rfl
    obtain ⟨hbin, hpre, hbsize, hbwf⟩ := hw.blocks_spec bi blk hblk
    obtain ⟨hidx, hfree, hmin, hpre2, hsize2, hlen2, hbit2, hoth2, hbs2, hwf2, hfc2⟩ :=
      allocBit_ok hbwf hab
    have hupd_old : ∀ u, u ∈ restRev.reverse →
        ∃ blk3, updBlocks p.blocks bi blk2 u = some blk3 := by
      intro u hu
      by_cases hub : u = bi
      · subst hub
        exact ⟨blk2, updBlocks_same⟩
      · rw [updBlocks_other hub]
        exact hfl u (List.mem_reverse.mp (hrest u (List.mem_reverse.mp hu)))
    refine ⟨.ok (blk2.bitToIP idx),
      { p with
          blocks := updBlocks p.blocks bi blk2,
          freeList :=
            if 0 < blk2.freeCount
            then restRev.reverse ++ [bi]
            else restRev.reverse },
      ?_, ?_, rfl, rfl, rfl, rfl, rfl, le_refl _, ?_, ?_⟩
    · simp only [Pool.Allocate, haf]
    · refine hw.update hw.next_le ?_ ?_
      · intro bj blkj hbj
        by_cases heq : bj = bi
        · subst heq
          rw [updBlocks_same] at hbj
          have hjj : blk2 = blkj := by simpa using hbj
          subst hjj
          refine ⟨hbin, ?_, ?_, hwf2⟩
          · rw [hpre2, hpre]
          · rw [hsize2, hbsize]
        · rw [updBlocks_other heq] at hbj
          exact hw.blocks_spec bj blkj hbj
      · intro u hu
        by_cases hfc : 0 < blk2.freeCount
        · rw [if_pos hfc] at hu
          rcases List.mem_append.mp hu with hu2 | hu2
          · exact hupd_old u hu2
          · have hub : u = bi := by simpa using hu2
            subst hub
            exact ⟨blk2, updBlocks_same⟩
        · rw [if_neg hfc] at hu
          exact hupd_old u hu
    · intro e he
      exact absurd he (by simp)
    · intro a ha
      have haa : a = blk2.bitToIP idx := by
        have := ha.symm
        simpa using this
      refine ⟨bi, idx, blk2, ?_, updBlocks_same, ?_, ?_, hwf2, haa, ?_, ?_⟩
      · have := hw.next_le
        omega
      · rw [hpre2, hpre]
      · rw [hsize2, hbsize]
      · intro h0
        rw [hbsize] at hidx
        omega
      · intro hpos
        rw [hbsize] at hidx
        exact ⟨hidx, hbit2⟩
  | none =>
    have hrr : restRev = [] := hnone rfl
    subst hrr
    by_cases hex : p.maxBlocks ≤ p.nextBlockIndex
    · refine ⟨.error .poolExhausted, { p with freeList := [] },
        ?_, ?_, rfl, rfl, rfl, rfl, rfl, le_refl _, ?_, ?_⟩
      · simp only [Pool.Allocate, haf]
        rw [if_pos hex]
      · refine hw.update hw.next_le ?_ ?_
        · intro bj blkj hbj
          exact hw.blocks_spec bj blkj hbj
        · intro u hu
          exact absurd hu (by simp)
      · intro e he
        have hee : e = Err.poolExhausted := by
          have := he.symm
          simpa using this
        exact ⟨hee, rfl, rfl, hex⟩
      · intro a ha
        exact absurd ha (by simp)
    · push_neg at hex
      have hlsh0 : p.networkAddr.lsh 0 = p.networkAddr := Uint128.lsh_zero hw.na_wf
      have hbs_lt : p.blockSize < 2 ^ 64 := hw.blockSize_lt
      have hnbwf : WFBlock (newBlock ((p.networkAddr.lsh 0).add
          ((Uint128.mk 0 p.nextBlockIndex).lsh p.hostBits)) p.blockSize) :=
        newBlock_wf hbs_lt
      have hnbpre : (newBlock ((p.networkAddr.lsh 0).add
          ((Uint128.mk 0 p.nextBlockIndex).lsh p.hostBits)) p.blockSize).prefixIP
          = p.networkAddr.add ((Uint128.mk 0 p.nextBlockIndex).lsh p.hostBits) := by
        rw [show (newBlock ((p.networkAddr.lsh 0).add
          ((Uint128.mk 0 p.nextBlockIndex).lsh p.hostBits)) p.blockSize).prefixIP
          = (p.networkAddr.lsh 0).add ((Uint128.mk 0 p.nextBlockIndex).lsh p.hostBits)
          from rfl, hlsh0]
      rcases hab : (newBlock ((p.networkAddr.lsh 0).add
          ((Uint128.mk 0 p.nextBlockIndex).lsh p.hostBits)) p.blockSize).allocBit
          with e | pr
      · -- `allocBit` failed on the fresh block: only possible when blockSize = 0
        have hbs0 : p.blockSize = 0 := by
          by_contra hbs
          obtain ⟨idx, b2, hok⟩ := allocBit_isOk hnbwf
            (show (0 : Nat) < (newBlock ((p.networkAddr.lsh 0).add
              ((Uint128.mk 0 p.nextBlockIndex).lsh p.hostBits)) p.blockSize).size
              from by
                show 0 < p.blockSize
                omega)
            (show bmBit (newBlock ((p.networkAddr.lsh 0).add
              ((Uint128.mk 0 p.nextBlockIndex).lsh p.hostBits)) p.blockSize).used 0 = false
              from bmBit_replicate_zero _ 0)
          rw [hab] at hok
          exact absurd hok (by simp)
        refine ⟨.ok ((newBlock ((p.networkAddr.lsh 0).add
            ((Uint128.mk 0 p.nextBlockIndex).lsh p.hostBits)) p.blockSize).bitToIP 0),
          { p with
              blocks :=
                updBlocks p.blocks p.nextBlockIndex
                  (newBlock ((p.networkAddr.lsh 0).add
                    ((Uint128.mk 0 p.nextBlockIndex).lsh p.hostBits)) p.blockSize),
              freeList :=
                if 0 < (newBlock ((p.networkAddr.lsh 0).add
                      ((Uint128.mk 0 p.nextBlockIndex).lsh p.hostBits)) p.blockSize).freeCount
                then ([] : List Nat) ++ [p.nextBlockIndex]
                else [],
              nextBlockIndex := p.nextBlockIndex + 1 },
          ?_, ?_, rfl, rfl, rfl, rfl, rfl, Nat.le_succ _, ?_, ?_⟩
        · simp only [Pool.Allocate, haf]
          rw [if_neg (by omega)]
          simp only [hab]
        · refine hw.update (by omega) ?_ ?_
          · intro bj blkj hbj
            by_cases heq : bj = p.nextBlockIndex
            · subst heq
              rw [updBlocks_same] at hbj
              have hjj : newBlock ((p.networkAddr.lsh 0).add
                  ((Uint128.mk 0 p.nextBlockIndex).lsh p.hostBits)) p.blockSize = blkj := by
                simpa using hbj
              rw [← hjj]
              exact ⟨by omega, hnbpre, rfl, hnbwf⟩
            · rw [updBlocks_other heq] at hbj
              obtain ⟨hlt2, hrest2⟩ := hw.blocks_spec bj blkj hbj
              exact ⟨by omega, hrest2⟩
          · intro u hu
            have hfc0 : (newBlock ((p.networkAddr.lsh 0).add
                ((Uint128.mk 0 p.nextBlockIndex).lsh p.hostBits)) p.blockSize).freeCount
                = 0 := by
              show p.blockSize = 0
              exact hbs0
            rw [hfc0] at hu
            simp at hu
        · intro e2 he
          exact absurd he (by simp)
        · intro a ha
          have haa : a = (newBlock ((p.networkAddr.lsh 0).add
              ((Uint128.mk 0 p.nextBlockIndex).lsh p.hostBits)) p.blockSize).bitToIP 0 := by
            have := ha.symm
            simpa using this
          refine ⟨p.nextBlockIndex, 0, _, hex, updBlocks_same, hnbpre, rfl, hnbwf,
            haa, fun _ => rfl, ?_⟩
          intro hpos
          omega
      · -- fresh block allocated its offset 0
        obtain ⟨idx, blk2⟩ := pr
        obtain ⟨hidx, hfree, hmin, hpre2, hsize2, hlen2, hbit2, hoth2, hbs2, hwf2, hfc2⟩ :=
          allocBit_ok hnbwf hab
        refine ⟨.ok (blk2.bitToIP idx),
          { p with
              blocks := updBlocks p.blocks p.nextBlockIndex blk2,
              freeList :=
                if 0 < blk2.freeCount
                then ([] : List Nat) ++ [p.nextBlockIndex]
                else [],
              nextBlockIndex := p.nextBlockIndex + 1 },
          ?_, ?_, rfl, rfl, rfl, rfl, rfl, Nat.le_succ _, ?_, ?_⟩
        · simp only [Pool.Allocate, haf]
          rw [if_neg (by omega)]
          simp only [hab]
        · refine hw.update (by omega) ?_ ?_
          · intro bj blkj hbj
            by_cases heq : bj = p.nextBlockIndex
            · subst heq
              rw [updBlocks_same] at hbj
              have hjj : blk2 = blkj := by simpa using hbj
              subst hjj
              refine ⟨by omega, ?_, ?_, hwf2⟩
              · rw [hpre2, hnbpre]
              · rw [hsize2]
                rfl
            · rw [updBlocks_other heq] at hbj
              obtain ⟨hlt2, hrest2⟩ := hw.blocks_spec bj blkj hbj
              exact ⟨by omega, hrest2⟩
          · intro u hu
            by_cases hfc : 0 < blk2.freeCount
            · rw [if_pos hfc] at hu
              have hub : u = p.nextBlockIndex := by simpa using hu
              subst hub
              exact ⟨blk2, updBlocks_same⟩
            · rw [if_neg hfc] at hu
              exact absurd hu (by simp)
        · intro e2 he
          exact absurd he (by simp)
        · intro a ha
          have haa : a = blk2.bitToIP idx := by
            have := ha.symm
            simpa using this
          refine ⟨p.nextBlockIndex, idx, blk2, hex, updBlocks_same, ?_, ?_, hwf2,
            haa, ?_, ?_⟩
          · rw [hpre2, hnbpre]
          · rw [hsize2]
            rfl
          · intro h0
            have : (newBlock ((p.networkAddr.lsh 0).add
              ((Uint128.mk 0 p.nextBlockIndex).lsh p.hostBits)) p.blockSize).size
              = p.blockSize := rfl
            omega
          · intro hpos
            exact ⟨by
              have : (newBlock ((p.networkAddr.lsh 0).add
                ((Uint128.mk 0 p.nextBlockIndex).lsh p.hostBits)) p.blockSize).size
                = p.blockSize := rfl
              omega, hbit2⟩

/-- `Release` preserves the invariant and the configuration scalars, keeps
`nextBlockIndex`, and leaves the pool untouched whenever it reports an
error. -/
theorem Release_spec {n bp : Nat} {p : Pool} (hw : PoolWF n bp p) (ip : Uint128) :
    PoolWF n bp (p.Release ip).2 ∧
    (p.Release ip).2.networkAddr = p.networkAddr ∧
    (p.Release ip).2.hostBits = p.hostBits ∧
    (p.Release ip).2.blockSize = p.blockSize ∧
    (p.Release ip).2.maxBlocks = p.maxBlocks ∧
    (p.Release ip).2.blockMask = p.blockMask ∧
    (p.Release ip).2.nextBlockIndex = p.nextBlockIndex ∧
    (∀ e, (p.Release ip).1 = .error e → (p.Release ip).2 = p) := by
  rcases hblk : p.blocks ((ip.sub p.networkAddr).rsh p.hostBits).Lo with _ | blk
  · have h1 : p.Release ip = (.error .ipNotFromPool, p) := by
      simp only [Pool.Release, hblk]
    rw [h1]
    exact ⟨hw, rfl, rfl, rfl, rfl, rfl, rfl, fun e _ => rfl⟩
  rcases hi2b : blk.ipToBit ip with e | idx
  · have h1 : p.Release ip = (.error e, p) := by
      simp only [Pool.Release, hblk, hi2b]
    rw [h1]
    exact ⟨hw, rfl, rfl, rfl, rfl, rfl, rfl, fun e2 _ => rfl⟩
  rcases hrel : blk.releaseBit idx with e | blk2
  · have h1 : p.Release ip = (.error e, p) := by
      simp only [Pool.Release, hblk, hi2b, hrel]
    rw [h1]
    exact ⟨hw, rfl, rfl, rfl, rfl, rfl, rfl, fun e2 _ => rfl⟩
  obtain ⟨hbin, hpre, hbsize, hbwf⟩ := hw.blocks_spec _ blk hblk
  obtain ⟨hidx, hbit, hpre2, hsize2, hlen2, hbit2, hoth2, hbs2, hwf2, hfc2⟩ :=
    releaseBit_ok hbwf hrel
  have hbks : ∀ bj blkj,
      updBlocks p.blocks ((ip.sub p.networkAddr).rsh p.hostBits).Lo blk2 bj = some blkj →
      bj < p.nextBlockIndex ∧
      blkj.prefixIP = p.networkAddr.add (Uint128.mk 0 bj |>.lsh p.hostBits) ∧
      blkj.size = p.blockSize ∧ WFBlock blkj := by
    intro bj blkj hbj
    by_cases heq : bj = ((ip.sub p.networkAddr).rsh p.hostBits).Lo
    · subst heq
      rw [updBlocks_same] at hbj
      have hjj : blk2 = blkj := by simpa using hbj
      subst hjj
      exact ⟨hbin, by rw [hpre2, hpre], by rw [hsize2, hbsize], hwf2⟩
    · rw [updBlocks_other heq] at hbj
      exact hw.blocks_spec bj blkj hbj
  by_cases hfc : 0 < blk2.freeCount
  · have h1 : p.Release ip = (.ok (), { p with
        blocks := updBlocks p.blocks ((ip.sub p.networkAddr).rsh p.hostBits).Lo blk2,
        freeList := p.freeList ++ [((ip.sub p.networkAddr).rsh p.hostBits).Lo] }) := by
      simp only [Pool.Release, hblk, hi2b, hrel, if_pos hfc]
    rw [h1]
    refine ⟨?_, rfl, rfl, rfl, rfl, rfl, rfl, fun e he => absurd he (by simp)⟩
    refine hw.update hw.next_le hbks ?_
    intro u hu
    rcases List.mem_append.mp hu with hu2 | hu2
    · by_cases heq : u = ((ip.sub p.networkAddr).rsh p.hostBits).Lo
      · subst heq
        exact ⟨blk2, updBlocks_same⟩
      · rw [updBlocks_other heq]
        exact hw.freeList_spec u hu2
    · have hub : u = ((ip.sub p.networkAddr).rsh p.hostBits).Lo := by simpa using hu2
      subst hub
      exact ⟨blk2, updBlocks_same⟩
  · have h1 : p.Release ip = (.ok (), { p with
        blocks := updBlocks p.blocks ((ip.sub p.networkAddr).rsh p.hostBits).Lo blk2 }) := by
      simp only [Pool.Release, hblk, hi2b, hrel, if_neg hfc]
    rw [h1]
    refine ⟨?_, rfl, rfl, rfl, rfl, rfl, rfl, fun e he => absurd he (by simp)⟩
    refine hw.update hw.next_le hbks ?_
    intro u hu
    by_cases heq : u = ((ip.sub p.networkAddr).rsh p.hostBits).Lo
    · subst heq
      exact ⟨blk2, updBlocks_same⟩
    · rw [updBlocks_other heq]
      exact hw.freeList_spec u hu

/-- In a non-degenerate pool (`64 < bp`), releasing an address whose bit is
set in its block succeeds. -/
theorem Release_ok_of_allocated {n bp : Nat} {p : Pool} (hw : PoolWF n bp p)
    (hbp : 64 < bp) {bi idx : Nat} {blk : Block}
    (hbi : bi < p.maxBlocks) (hblk : p.blocks bi = some blk)
    (hidx : idx < p.blockSize) (hbit : bmBit blk.used idx = true) :
    (p.Release (blk.bitToIP idx)).1 = .ok () := by
  obtain ⟨hbin, hpre, hbsize, hbwf⟩ := hw.blocks_spec bi blk hblk
  have hh : p.hostBits = 128 - bp := hw.hostBits_eq
  have hbp128 : bp ≤ 128 := hw.2.2.1
  have hh64 : p.hostBits < 64 := by omega
  have hbs : p.blockSize = 2 ^ p.hostBits := by
    rw [hw.blockSize_eq, if_pos hbp, hh]
  obtain ⟨hbasewf, hbaseval, hbasebound⟩ := hw.base_spec hbi
  have hprewf : blk.prefixIP.wf := by
    rw [hpre]
    exact hbasewf
  have hpreval : blk.prefixIP.val = p.networkAddr.val + bi * 2 ^ p.hostBits := by
    rw [hpre]
    exact hbaseval
  have hidx64 : idx < 2 ^ 64 := lt_of_lt_of_le (hbs ▸ hidx)
    (Nat.pow_le_pow_right (by norm_num) (by omega))
  have hsucc : (bi + 1) * 2 ^ p.hostBits = bi * 2 ^ p.hostBits + 2 ^ p.hostBits := by
    ring
  have habound : blk.prefixIP.val + idx < 2 ^ 128 := by
    rw [hpreval]
    have hidxh : idx < 2 ^ p.hostBits := hbs ▸ hidx
    omega
  have hip : blk.bitToIP idx = ofVal (blk.prefixIP.val + idx) :=
    bitToIP_spec hprewf hidx64 habound
  have hipwf : (blk.bitToIP idx).wf := hip ▸ ofVal_wf habound
  have hipval : (blk.bitToIP idx).val = blk.prefixIP.val + idx := by
    rw [hip]
    exact ofVal_val habound
  have hnale : p.networkAddr.val ≤ (blk.bitToIP idx).val := by
    rw [hipval, hpreval]
    omega
  obtain ⟨hdwf, hdval⟩ := Uint128.sub_spec hipwf hw.na_wf hnale
  have hdval2 : ((blk.bitToIP idx).sub p.networkAddr).val
      = bi * 2 ^ p.hostBits + idx := by
    rw [hdval, hipval, hpreval]
    omega
  obtain ⟨hrwf, hrval⟩ := Uint128.rsh_spec hdwf (show p.hostBits < 128 by omega)
  have hrbi : (((blk.bitToIP idx).sub p.networkAddr).rsh p.hostBits).val = bi := by
    rw [hrval, hdval2]
    have hidxh : idx < 2 ^ p.hostBits := hbs ▸ hidx
    rw [Nat.mul_comm, Nat.mul_add_div (show 0 < 2 ^ p.hostBits by positivity),
      Nat.div_eq_of_lt hidxh]
    omega
  have hbi64 : bi < 2 ^ 64 := lt_of_lt_of_le hbi (le_trans hw.maxBlocks_le (by norm_num))
  have hLo : (((blk.bitToIP idx).sub p.networkAddr).rsh p.hostBits).Lo = bi := by
    obtain ⟨hh1, hh2⟩ := hrwf
    have := hrbi
    simp only [Uint128.val] at this
    omega
  have hi2b : blk.ipToBit (blk.bitToIP idx) = .ok idx := by
    have := ipToBit_ok hprewf hipwf (by rw [hbsize]; exact hw.blockSize_lt)
      (by rw [hipval]; omega)
      (by rw [hipval, hbsize]; omega)
    rw [this, hipval]
    congr 1
    omega
  obtain ⟨blk2, hrel⟩ := releaseBit_isOk (show idx < blk.size by rw [hbsize]; omega) hbit
  have hblk2 : p.blocks (((blk.bitToIP idx).sub p.networkAddr).rsh p.hostBits).Lo
      = some blk := by
    rw [hLo]
    exact hblk
  simp only [Pool.Release, hblk2, hi2b, hrel]
  by_cases hfc : 0 < blk2.freeCount
  · rw [if_pos hfc]
  · rw [if_neg hfc]

/-- A freshly constructed pool satisfies the invariant, with empty state. -/
theorem NewPool_wf {ip : Uint128} (hip : ip.wf) {nP bpP eb : Int} {p : Pool}
    (h : NewPool ip nP bpP eb = .ok p) :
    PoolWF nP.toNat bpP.toNat p ∧ p.blocks = (fun _ => none) ∧ p.freeList = [] ∧
    p.nextBlockIndex = 0 := by
  simp only [NewPool] at h
  split_ifs at h with h1 h2 h3
  push_neg at h1 h2
  simp only [Except.ok.injEq] at h
  subst h
  have hn : nP.toNat ≤ 128 := by omega
  have hnbp : nP.toNat < bpP.toNat := by omega
  have hbp : bpP.toNat ≤ 128 := by omega
  have hdiff : bpP.toNat - nP.toNat ≤ 63 := by omega
  refine ⟨⟨hn, hnbp, hbp, hdiff, rfl, rfl, rfl, ?_, ?_, Nat.zero_le _, ?_, ?_, rfl⟩,
    rfl, rfl, rfl⟩
  · exact (Uint128.maskN_spec hip hn).1
  · exact maskN_aligned hip hn
  · intro bi blk hblk
    exact absurd hblk (by simp)
  · intro bi hbi
    exact absurd hbi (by simp)

/-- Copying a full-length word list into a zeroed buffer reproduces it. -/
theorem goCopy_id {L : Nat} {ws : List Nat} (h : ws.length = L) :
    goCopy (List.replicate L 0) ws = ws := by
  subst h
  simp [goCopy]

theorem usedCountOf_aux (ws : List Nat) : ∀ acc, acc + bitsum ws < W →
    ws.foldl (fun acc w => (acc + pc64 w) % W) acc = acc + bitsum ws := by
  induction ws with
  | nil =>
    intro acc h
    simp [bitsum]
  | cons w ws ih =>
    intro acc h
    have hcons : bitsum (w :: ws) = pc64 w + bitsum ws := rfl
    simp only [List.foldl_cons]
    rw [Nat.mod_eq_of_lt (by omega), ih (acc + pc64 w) (by omega)]
    omega

/-- The `uint64` used-bit count agrees with `bitsum` when no overflow occurs. -/
theorem usedCountOf_eq {ws : List Nat} (h : bitsum ws < W) :
    usedCountOf ws = bitsum ws := by
  have := usedCountOf_aux ws 0 (by omega)
  simpa [usedCountOf] using this

/-- Restoring a snapshot of an invariant-satisfying pool with nonzero
`blockSize` rebuilds exactly the same pool. -/
theorem restore_eq {n bp : Nat} {p : Pool} (hw : PoolWF n bp p)
    (hbs : p.blockSize ≠ 0) :
    NewPoolFromSnapshot p.Snapshot = .ok p := by
  have hmask : p.blockMask ≠ [] := by
    rw [hw.mask_eq]
    exact cidrMask_ne_nil n
  have hblocks : (fun idx => (((p.blocks idx).map Block.used).map (fun words =>
      let startBI := p.networkAddr.add (Uint128.mk 0 idx |>.lsh p.hostBits)
      let blk := newBlock startBI p.blockSize
      { blk with
          used := goCopy blk.used words
          freeCount := (p.blockSize + W - usedCountOf words % W) % W })))
      = p.blocks := by
    funext bi
    rcases hblk : p.blocks bi with _ | blk
    · simp
    obtain ⟨hbin, hpre, hbsize, hbwf⟩ := hw.blocks_spec bi blk hblk
    obtain ⟨hwords, hlen, hsize, hdead, hfc, hbsle⟩ := hbwf
    have hlen2 : blk.used.length = (p.blockSize + 63) / 64 := by
      rw [hlen, hbsize]
    have hbsum : bitsum blk.used < W := by
      have hW := W_def
      omega
    have huc : usedCountOf blk.used = bitsum blk.used := usedCountOf_eq hbsum
    have hfc2 : (p.blockSize + W - usedCountOf blk.used % W) % W = blk.freeCount := by
      rw [huc]
      have hle : bitsum blk.used ≤ p.blockSize := by
        rw [← hbsize]
        exact hbsle
      have hblt : p.blockSize < 2 ^ 64 := by
        rw [← hbsize]
        omega
      have hfcv : blk.freeCount = p.blockSize - bitsum blk.used := by
        rw [hfc, hbsize]
      rw [hfcv]
      simp only [W_def]
      omega
    have hbe : Block.mk (p.networkAddr.add (Uint128.mk 0 bi |>.lsh p.hostBits)) blk.used
        blk.freeCount p.blockSize = blk := by
      rw [← hpre, ← hbsize]
    simp only [Option.map, newBlock]
    rw [goCopy_id hlen2, hfc2, hbe]
  simp only [NewPoolFromSnapshot, Pool.Snapshot]
  rw [if_neg (by push_neg; exact ⟨hmask, hbs⟩)]
  rw [hblocks]

theorem sum_indicator_lt : ∀ N m : Nat, m ≤ N →
    (∑ t ∈ Finset.range N, if t < m then (1 : Nat) else 0) = m := by
  intro N
  induction N with
  | zero =>
    intro m h
    have hm : m = 0 := by omega
    subst hm
    simp
  | succ N ih =>
    intro m h
    rw [Finset.sum_range_succ]
    by_cases hm : m ≤ N
    · rw [ih m hm, if_neg (by omega)]
      omega
    · have hm2 : m = N + 1 := by omega
      subst hm2
      rw [if_pos (by omega)]
      have hconst : (∑ t ∈ Finset.range N, if t < N + 1 then (1 : Nat) else 0)
          = ∑ t ∈ Finset.range N, 1 :=
        Finset.sum_congr rfl (fun t ht => if_pos (by
          have := Finset.mem_range.mp ht
          omega))
      rw [hconst]
      simp

/-- A bitmap whose set bits are exactly the offsets below `m` has `m` set
bits. -/
theorem bitsum_of_iff {ws : List Nat} {m : Nat} (hm : m ≤ 64 * ws.length)
    (h : ∀ t, t < 64 * ws.length → (bmBit ws t = true ↔ t < m)) :
    bitsum ws = m := by
  rw [bitsum_eq_sum]
  have hcong : (∑ t ∈ Finset.range (64 * ws.length), if bmBit ws t then (1 : Nat) else 0)
      = ∑ t ∈ Finset.range (64 * ws.length), if t < m then (1 : Nat) else 0 := by
    refine Finset.sum_congr rfl ?_
    intro t ht
    have ht2 := Finset.mem_range.mp ht
    by_cases hb : t < m
    · rw [if_pos hb, if_pos ((h t ht2).mpr hb)]
    · have hfalse : bmBit ws t = false := by
        rcases Bool.eq_false_or_eq_true (bmBit ws t) with htt | hf
        · exact absurd ((h t ht2).mp htt) hb
        · exact hf
      rw [if_neg hb, hfalse]
      simp
  rw [hcong]
  exact sum_indicator_lt _ m hm

/-! ### Exact description of a fresh allocation run (no releases) -/

/-- Number of successful `Allocate` calls each block serves in a fresh run:
`blockSize`, except that a degenerate (`blockSize = 0`) block still serves
exactly one call (the ignored `allocBit` error path). -/
def SAlloc (p0 : Pool) : Nat := max p0.blockSize 1

/-- Total number of successful calls a fresh pool serves before exhaustion. -/
def totalAllocs (p0 : Pool) : Nat := p0.maxBlocks * SAlloc p0

/-- Value of the address returned by the `i`-th (0-based) call of a fresh
run. -/
def addrVal (p0 : Pool) (i : Nat) : Nat :=
  p0.networkAddr.val + i / SAlloc p0 * 2 ^ p0.hostBits + i % SAlloc p0

/-- Exact state of a pool after the first `i` calls of a fresh run of
`Allocate` on `p0`: configuration unchanged; blocks `0 … i/S - 1` full
(`S = SAlloc p0` calls each); block `i/S` holding the residue `i % S`; the
free list holding the current block exactly when it is partially filled. -/
def FreshState (p0 p : Pool) (i : Nat) : Prop :=
  p.blockMask = p0.blockMask ∧
  p.networkAddr = p0.networkAddr ∧
  p.hostBits = p0.hostBits ∧
  p.blockSize = p0.blockSize ∧
  p.maxBlocks = p0.maxBlocks ∧
  p.nextBlockIndex = i / SAlloc p0 + (if i % SAlloc p0 = 0 then 0 else 1) ∧
  p.freeList = (if i % SAlloc p0 = 0 then [] else [i / SAlloc p0]) ∧
  (∀ j, p.nextBlockIndex ≤ j → p.blocks j = none) ∧
  (∀ j, j < p.nextBlockIndex → ∃ blk, p.blocks j = some blk ∧
    blk.prefixIP = p0.networkAddr.add (Uint128.mk 0 j |>.lsh p0.hostBits) ∧
    blk.size = p0.blockSize ∧ WFBlock blk ∧
    (∀ t, t < 64 * blk.used.length →
      (bmBit blk.used t = true ↔ t < min p0.blockSize (i - j * SAlloc p0))))

/-- A pool fresh out of `NewPool` is the `i = 0` state of its own run. -/
theorem FreshState_zero {ip : Uint128} {nP bpP eb : Int} {p : Pool}
    (hip : ip.wf) (h : NewPool ip nP bpP eb = .ok p) : FreshState p p 0 := by
  obtain ⟨hw, hblocks, hfl, hnext⟩ := NewPool_wf hip h
  have hS : 0 % SAlloc p = 0 := Nat.zero_mod _
  refine ⟨rfl, rfl, rfl, rfl, rfl, ?_, ?_, ?_, ?_⟩
  · rw [hnext, hS]
    simp
  · rw [hfl, hS]
    simp
  · intro j hj
    rw [hblocks]
  · intro j hj
    rw [hnext] at hj
    omega

/-- A fresh-run step with an empty free list (`i % S = 0`): `Allocate`
creates block `i / S` and returns its base address. -/
theorem FreshState_step_new {n bp : Nat} {p0 p : Pool} (hw0 : PoolWF n bp p0)
    {i : Nat} (hfs : FreshState p0 p i) (hi : i < totalAllocs p0)
    (hr : i % SAlloc p0 = 0) :
    ∃ p2, p.Allocate = some (.ok (ofVal (addrVal p0 i)), p2) ∧
      FreshState p0 p2 (i + 1) := by
  obtain ⟨hmask, hna, hhb, hbs, hmb, hnext, hfl, hnone, hsome⟩ := hfs
  have hS0 : 0 < SAlloc p0 := by
    simp [SAlloc]
  have hqr : SAlloc p0 * (i / SAlloc p0) + i % SAlloc p0 = i := Nat.div_add_mod i (SAlloc p0)
  have hqmb : i / SAlloc p0 < p0.maxBlocks := by
    by_contra hc
    push_neg at hc
    have h1 : p0.maxBlocks * SAlloc p0 ≤ i / SAlloc p0 * SAlloc p0 :=
      Nat.mul_le_mul_right _ hc
    have h2 : i / SAlloc p0 * SAlloc p0 = SAlloc p0 * (i / SAlloc p0) := Nat.mul_comm _ _
    have h3 := hi
    simp only [totalAllocs] at h3
    omega
  have hnextq : p.nextBlockIndex = i / SAlloc p0 := by
    rw [hnext, if_pos hr]
    omega
  have hflnil : p.freeList = [] := by
    rw [hfl, if_pos hr]
  have haf : allocFLAux p.blocks p.freeList.reverse = some (none, []) := by
    rw [hflnil]
    rfl
  have hnotex : ¬ p.maxBlocks ≤ p.nextBlockIndex := by
    rw [hmb, hnextq]
    omega
  have hlsh0 : p.networkAddr.lsh 0 = p.networkAddr := by
    rw [hna]
    exact Uint128.lsh_zero hw0.na_wf
  have hstart : (p.networkAddr.lsh 0).add (Uint128.mk 0 p.nextBlockIndex |>.lsh p.hostBits)
      = p0.networkAddr.add (Uint128.mk 0 (i / SAlloc p0) |>.lsh p0.hostBits) := by
    rw [hlsh0, hna, hhb, hnextq]
  obtain ⟨hbwf0, hbval, hbbound⟩ := hw0.base_spec hqmb
  have hsucc : (i / SAlloc p0 + 1) * 2 ^ p0.hostBits
      = i / SAlloc p0 * 2 ^ p0.hostBits + 2 ^ p0.hostBits := by
    ring
  have hpow : 0 < 2 ^ p0.hostBits := by positivity
  have hjS : p.nextBlockIndex * SAlloc p0 = i := by
    rw [hnextq, Nat.mul_comm]
    omega
  by_cases hbs0 : p0.blockSize = 0
  · -- degenerate pool: empty bitmap, `allocBit` error ignored, base returned
    have hpbs : p.blockSize = 0 := by
      rw [hbs, hbs0]
    have hS1 : SAlloc p0 = 1 := by
      simp [SAlloc, hbs0]
    have hnbused : (newBlock ((p.networkAddr.lsh 0).add
        (Uint128.mk 0 p.nextBlockIndex |>.lsh p.hostBits)) p.blockSize).used = [] := by
      simp [newBlock, hpbs]
    have hab : (newBlock ((p.networkAddr.lsh 0).add
        (Uint128.mk 0 p.nextBlockIndex |>.lsh p.hostBits)) p.blockSize).allocBit
        = .error .blockFull := by
      unfold Block.allocBit
      rw [hnbused]
      rfl
    have hfcnb : ¬ 0 < (newBlock ((p.networkAddr.lsh 0).add
        (Uint128.mk 0 p.nextBlockIndex |>.lsh p.hostBits)) p.blockSize).freeCount := by
      show ¬ 0 < p.blockSize
      omega
    have haddr : (newBlock ((p.networkAddr.lsh 0).add
        (Uint128.mk 0 p.nextBlockIndex |>.lsh p.hostBits)) p.blockSize).bitToIP 0
        = ofVal (addrVal p0 i) := by
      have hpref : (newBlock ((p.networkAddr.lsh 0).add
          (Uint128.mk 0 p.nextBlockIndex |>.lsh p.hostBits)) p.blockSize).prefixIP
          = p0.networkAddr.add (Uint128.mk 0 (i / SAlloc p0) |>.lsh p0.hostBits) := hstart
      rw [bitToIP_spec (by rw [hpref]; exact hbwf0) (by norm_num)
        (by rw [hpref, hbval]; omega), hpref, hbval]
      simp only [addrVal]
      rw [hr]
    refine ⟨{ p with
        blocks := updBlocks p.blocks p.nextBlockIndex (newBlock ((p.networkAddr.lsh 0).add
          (Uint128.mk 0 p.nextBlockIndex |>.lsh p.hostBits)) p.blockSize),
        freeList := [],
        nextBlockIndex := p.nextBlockIndex + 1 }, ?_, ?_⟩
    · simp only [Pool.Allocate, haf]
      rw [if_neg hnotex]
      simp only [hab]
      rw [if_neg hfcnb, haddr]
    · refine ⟨hmask, hna, hhb, hbs, hmb, ?_, ?_, ?_, ?_⟩
      · rw [hS1, Nat.div_one, Nat.mod_one, if_pos rfl, hnextq, hS1, Nat.div_one]
      · rw [hS1, Nat.mod_one, if_pos rfl]
      · intro j hj
        have hj2 : p.nextBlockIndex + 1 ≤ j := hj
        show updBlocks p.blocks p.nextBlockIndex (newBlock ((p.networkAddr.lsh 0).add
          (Uint128.mk 0 p.nextBlockIndex |>.lsh p.hostBits)) p.blockSize) j = none
        rw [updBlocks_other (by omega)]
        exact hnone j (by omega)
      · intro j hj
        have hj2 : j < p.nextBlockIndex + 1 := hj
        by_cases heq : j = p.nextBlockIndex
        · subst heq
          refine ⟨_, updBlocks_same, hstart.trans (by rw [hnextq]), hbs,
            newBlock_wf (by rw [hbs]; exact hw0.blockSize_lt), ?_⟩
          intro t ht
          exfalso
          rw [show (newBlock ((p.networkAddr.lsh 0).add
            (Uint128.mk 0 p.nextBlockIndex |>.lsh p.hostBits)) p.blockSize).used
            = List.replicate ((p.blockSize + 63) / 64) 0 from rfl,
            List.length_replicate, hpbs] at ht
          omega
        · obtain ⟨blk, hblkj, h1, h2, h3, h4⟩ := hsome j (by omega)
          refine ⟨blk, ?_, h1, h2, h3, ?_⟩
          · show updBlocks p.blocks p.nextBlockIndex (newBlock ((p.networkAddr.lsh 0).add
              (Uint128.mk 0 p.nextBlockIndex |>.lsh p.hostBits)) p.blockSize) j = some blk
            rw [updBlocks_other heq]
            exact hblkj
          intro t ht
          have h5 := h4 t ht
          rw [hbs0] at h5 ⊢
          simpa using h5
  · -- regular pool: `allocBit` takes offset `0` of the fresh block
    have hSbs : SAlloc p0 = p0.blockSize := Nat.max_eq_left (by omega)
    have hnbwf : WFBlock (newBlock ((p.networkAddr.lsh 0).add
        (Uint128.mk 0 p.nextBlockIndex |>.lsh p.hostBits)) p.blockSize) :=
      newBlock_wf (by rw [hbs]; exact hw0.blockSize_lt)
    obtain ⟨idx, blk2, hab⟩ := allocBit_isOk hnbwf
      (show (0 : Nat) < (newBlock ((p.networkAddr.lsh 0).add
          (Uint128.mk 0 p.nextBlockIndex |>.lsh p.hostBits)) p.blockSize).size from by
        show 0 < p.blockSize
        rw [hbs]
        omega)
      (show bmBit (newBlock ((p.networkAddr.lsh 0).add
          (Uint128.mk 0 p.nextBlockIndex |>.lsh p.hostBits)) p.blockSize).used 0 = false
        from bmBit_replicate_zero _ 0)
    obtain ⟨hidx, hfree, hmin, hpre2, hsize2, hlen2, hbit2, hoth2, hbs2, hwf2, hfc2⟩ :=
      allocBit_ok hnbwf hab
    have hidx0 : idx = 0 := Nat.le_zero.mp (hmin 0
      (by show 0 < p.blockSize; rw [hbs]; omega) (bmBit_replicate_zero _ 0))
    subst hidx0
    have hfcv : blk2.freeCount + 1 = p0.blockSize := by
      rw [← hbs]
      exact hfc2
    have haddr : blk2.bitToIP 0 = ofVal (addrVal p0 i) := by
      have hpref : blk2.prefixIP
          = p0.networkAddr.add (Uint128.mk 0 (i / SAlloc p0) |>.lsh p0.hostBits) :=
        hpre2.trans hstart
      rw [bitToIP_spec (by rw [hpref]; exact hbwf0) (by norm_num)
        (by rw [hpref, hbval]; omega), hpref, hbval]
      simp only [addrVal]
      rw [hr]
    have hfl1 : (if 0 < blk2.freeCount then ([] : List Nat) ++ [p.nextBlockIndex] else [])
        = (if (i + 1) % SAlloc p0 = 0 then [] else [(i + 1) / SAlloc p0]) := by
      by_cases hbs1 : p0.blockSize = 1
      · rw [if_neg (by omega), if_pos (by rw [hSbs, hbs1]; omega)]
      · have hS2 : 2 ≤ SAlloc p0 := by
          rw [hSbs]
          omega
        have hmod : (i + 1) % SAlloc p0 = 1 := by
          rw [show i + 1 = SAlloc p0 * (i / SAlloc p0) + 1 from by omega,
            Nat.mul_add_mod, Nat.mod_eq_of_lt (by omega)]
        have hdiv : (i + 1) / SAlloc p0 = i / SAlloc p0 := by
          rw [show i + 1 = SAlloc p0 * (i / SAlloc p0) + 1 from by omega,
            Nat.mul_add_div (by omega),
            Nat.div_eq_of_lt (show 1 < SAlloc p0 by omega)]
          omega
        rw [if_pos (by omega), if_neg (by omega), hdiv, hnextq]
        rfl
    have hnext1 : p.nextBlockIndex + 1
        = (i + 1) / SAlloc p0 + (if (i + 1) % SAlloc p0 = 0 then 0 else 1) := by
      by_cases hbs1 : p0.blockSize = 1
      · have hSone : SAlloc p0 = 1 := by
          rw [hSbs, hbs1]
        rw [hSone, Nat.div_one, Nat.mod_one, if_pos rfl, hnextq, hSone, Nat.div_one]
      · have hS2 : 2 ≤ SAlloc p0 := by
          rw [hSbs]
          omega
        have hmod : (i + 1) % SAlloc p0 = 1 := by
          rw [show i + 1 = SAlloc p0 * (i / SAlloc p0) + 1 from by omega,
            Nat.mul_add_mod, Nat.mod_eq_of_lt (by omega)]
        have hdiv : (i + 1) / SAlloc p0 = i / SAlloc p0 := by
          rw [show i + 1 = SAlloc p0 * (i / SAlloc p0) + 1 from by omega,
            Nat.mul_add_div (by omega),
            Nat.div_eq_of_lt (show 1 < SAlloc p0 by omega)]
          omega
        rw [if_neg (by omega), hdiv, hnextq]
    refine ⟨{ p with
        blocks := updBlocks p.blocks p.nextBlockIndex blk2,
        freeList := if 0 < blk2.freeCount then ([] : List Nat) ++ [p.nextBlockIndex] else [],
        nextBlockIndex := p.nextBlockIndex + 1 }, ?_, ?_⟩
    · simp only [Pool.Allocate, haf]
      rw [if_neg hnotex]
      simp only [hab]
      rw [haddr]
    · refine ⟨hmask, hna, hhb, hbs, hmb, hnext1, hfl1, ?_, ?_⟩
      · intro j hj
        have hj2 : p.nextBlockIndex + 1 ≤ j := hj
        show updBlocks p.blocks p.nextBlockIndex blk2 j = none
        rw [updBlocks_other (by omega)]
        exact hnone j (by omega)
      · intro j hj
        have hj2 : j < p.nextBlockIndex + 1 := hj
        by_cases heq : j = p.nextBlockIndex
        · subst heq
          refine ⟨blk2, updBlocks_same, hpre2.trans (hstart.trans (by rw [hnextq])),
            hsize2.trans hbs, hwf2, ?_⟩
          intro t ht
          have hmin1 : min p0.blockSize (i + 1 - p.nextBlockIndex * SAlloc p0) = 1 := by
            rw [hjS]
            have h6 : i + 1 - i = 1 := by omega
            rw [h6]
            exact Nat.min_eq_right (by omega)
          rw [hmin1]
          constructor
          · intro hbt
            by_contra hc
            push_neg at hc
            have hne : t ≠ 0 := by omega
            rw [hoth2 t hne] at hbt
            rw [show (newBlock ((p.networkAddr.lsh 0).add
              (Uint128.mk 0 p.nextBlockIndex |>.lsh p.hostBits)) p.blockSize).used
              = List.replicate ((p.blockSize + 63) / 64) 0 from rfl,
              bmBit_replicate_zero] at hbt
            exact absurd hbt (by simp)
          · intro htlt
            have ht0 : t = 0 := by omega
            rw [ht0]
            exact hbit2
        · obtain ⟨blk, hblkj, h1, h2, h3, h4⟩ := hsome j (by omega)
          refine ⟨blk, ?_, h1, h2, h3, ?_⟩
          · show updBlocks p.blocks p.nextBlockIndex blk2 j = some blk
            rw [updBlocks_other heq]
            exact hblkj
          intro t ht
          have h5 := h4 t ht
          have hjlt : j < p.nextBlockIndex := by omega
          have h6 : j + 1 ≤ i / SAlloc p0 := by
            rw [hnextq] at hjlt
            omega
          have h7 : (j + 1) * SAlloc p0 ≤ i / SAlloc p0 * SAlloc p0 :=
            Nat.mul_le_mul_right _ h6
          have h8 : i / SAlloc p0 * SAlloc p0 = i := by
            rw [Nat.mul_comm]
            omega
          have h9 : (j + 1) * SAlloc p0 = j * SAlloc p0 + SAlloc p0 := by
            ring
          have h10 : min p0.blockSize (i - j * SAlloc p0) = p0.blockSize :=
            Nat.min_eq_left (by omega)
          have h11 : min p0.blockSize (i + 1 - j * SAlloc p0) = p0.blockSize :=
            Nat.min_eq_left (by omega)
          rw [h10] at h5
          rw [h11]
          exact h5

/-- A fresh-run step with a partially filled current block (`i % S ≠ 0`):
`Allocate` pops block `i / S` from the free list and takes offset `i % S`. -/
theorem FreshState_step_pop {n bp : Nat} {p0 p : Pool} (hw0 : PoolWF n bp p0)
    {i : Nat} (hfs : FreshState p0 p i) (hi : i < totalAllocs p0)
    (hr : ¬ i % SAlloc p0 = 0) :
    ∃ p2, p.Allocate = some (.ok (ofVal (addrVal p0 i)), p2) ∧
      FreshState p0 p2 (i + 1) := by
  obtain ⟨hmask, hna, hhb, hbs, hmb, hnext, hfl, hnone, hsome⟩ := hfs
  have hS0 : 0 < SAlloc p0 := by
    simp [SAlloc]
  have hqr : SAlloc p0 * (i / SAlloc p0) + i % SAlloc p0 = i := Nat.div_add_mod i (SAlloc p0)
  have hrS : i % SAlloc p0 < SAlloc p0 := Nat.mod_lt i hS0
  have hS1ne : SAlloc p0 ≠ 1 := by
    intro h1
    rw [h1, Nat.mod_one] at hr
    exact hr rfl
  have hbs0 : p0.blockSize ≠ 0 := by
    intro h0
    exact hS1ne (by simp [SAlloc, h0])
  have hSbs : SAlloc p0 = p0.blockSize := Nat.max_eq_left (by omega)
  have hbs2 : 2 ≤ p0.blockSize := by
    have h1 := hS1ne
    rw [hSbs] at h1
    omega
  have hqmb : i / SAlloc p0 < p0.maxBlocks := by
    by_contra hc
    push_neg at hc
    have h1 : p0.maxBlocks * SAlloc p0 ≤ i / SAlloc p0 * SAlloc p0 :=
      Nat.mul_le_mul_right _ hc
    have h2 : i / SAlloc p0 * SAlloc p0 = SAlloc p0 * (i / SAlloc p0) := Nat.mul_comm _ _
    have h3 := hi
    simp only [totalAllocs] at h3
    omega
  have hnextq1 : p.nextBlockIndex = i / SAlloc p0 + 1 := by
    rw [hnext, if_neg hr]
  have hflq : p.freeList = [i / SAlloc p0] := by
    rw [hfl, if_neg hr]
  obtain ⟨blk, hblkq, hpre, hsizeq, hbwf, hbits⟩ := hsome (i / SAlloc p0) (by omega)
  obtain ⟨hwords, hlen, hsize, hdead, hfcW, hbsle⟩ := id hbwf
  have hiq : i - i / SAlloc p0 * SAlloc p0 = i % SAlloc p0 := by
    rw [Nat.mul_comm]
    omega
  have hcover : p0.blockSize ≤ 64 * blk.used.length := by
    rw [hlen, hsizeq]
    omega
  have hbits2 : ∀ t, t < 64 * blk.used.length →
      (bmBit blk.used t = true ↔ t < i % SAlloc p0) := by
    intro t ht
    have h1 := hbits t ht
    rw [hiq, Nat.min_eq_right (by omega)] at h1
    exact h1
  have hrsize : i % SAlloc p0 < blk.size := by
    rw [hsizeq]
    omega
  have hfreebit : bmBit blk.used (i % SAlloc p0) = false := by
    rcases Bool.eq_false_or_eq_true (bmBit blk.used (i % SAlloc p0)) with ht | hf
    · have h1 := (hbits2 (i % SAlloc p0) (by omega)).mp ht
      omega
    · exact hf
  obtain ⟨idx, blk2, hab⟩ := allocBit_isOk hbwf hrsize hfreebit
  obtain ⟨hidx, hfree, hmin, hpre2, hsize2, hlen2, hbit2, hoth2, hbs2s, hwf2, hfc2⟩ :=
    allocBit_ok hbwf hab
  have hidxr : idx = i % SAlloc p0 := by
    have h1 : idx ≤ i % SAlloc p0 := hmin _ hrsize hfreebit
    by_contra hne
    have h2 : idx < i % SAlloc p0 := by omega
    have h3 := (hbits2 idx (by omega)).mpr h2
    rw [hfree] at h3
    exact absurd h3 (by simp)
  subst hidxr
  have hbsum : bitsum blk.used = i % SAlloc p0 := bitsum_of_iff (by omega) hbits2
  have hfcblk : blk.freeCount = p0.blockSize - i % SAlloc p0 := by
    rw [hfcW, hbsum, hsizeq]
  have hrev : p.freeList.reverse = [i / SAlloc p0] := by
    rw [hflq]
    rfl
  have haf : allocFLAux p.blocks p.freeList.reverse
      = some (some (i / SAlloc p0, i % SAlloc p0, blk2), []) := by
    rw [hrev]
    simp only [allocFLAux, hblkq, hab]
  obtain ⟨hbwf0, hbval, hbbound⟩ := hw0.base_spec hqmb
  have hsucc : (i / SAlloc p0 + 1) * 2 ^ p0.hostBits
      = i / SAlloc p0 * 2 ^ p0.hostBits + 2 ^ p0.hostBits := by
    ring
  have hbsle2 : p0.blockSize ≤ 2 ^ p0.hostBits := hw0.blockSize_le
  have haddr : blk2.bitToIP (i % SAlloc p0) = ofVal (addrVal p0 i) := by
    have hpref : blk2.prefixIP
        = p0.networkAddr.add (Uint128.mk 0 (i / SAlloc p0) |>.lsh p0.hostBits) :=
      hpre2.trans hpre
    rw [bitToIP_spec (by rw [hpref]; exact hbwf0)
      (by have h := hw0.blockSize_lt; omega)
      (by rw [hpref, hbval]; omega), hpref, hbval]
    simp only [addrVal]
  refine ⟨{ p with
      blocks := updBlocks p.blocks (i / SAlloc p0) blk2,
      freeList := if 0 < blk2.freeCount then [i / SAlloc p0] else [] }, ?_, ?_⟩
  · simp only [Pool.Allocate, haf]
    rw [haddr]
    by_cases hfc : 0 < blk2.freeCount
    · rw [if_pos hfc, if_pos hfc]
      rfl
    · rw [if_neg hfc, if_neg hfc]
      rfl
  · have hfcv : blk2.freeCount + 1 + i % SAlloc p0 = p0.blockSize := by
      omega
    refine ⟨hmask, hna, hhb, hbs, hmb, ?_, ?_, ?_, ?_⟩
    · -- nextBlockIndex unchanged
      show p.nextBlockIndex
          = (i + 1) / SAlloc p0 + (if (i + 1) % SAlloc p0 = 0 then 0 else 1)
      by_cases hrl : i % SAlloc p0 + 1 = SAlloc p0
      · have hieq : i + 1 = SAlloc p0 * (i / SAlloc p0 + 1) := by
          have hd : SAlloc p0 * (i / SAlloc p0 + 1)
              = SAlloc p0 * (i / SAlloc p0) + SAlloc p0 := by
            ring
          omega
        have hmod : (i + 1) % SAlloc p0 = 0 := by
          rw [hieq]
          exact Nat.mul_mod_right _ _
        have hdiv : (i + 1) / SAlloc p0 = i / SAlloc p0 + 1 := by
          rw [show i + 1 = SAlloc p0 * (i / SAlloc p0 + 1) + 0 from by omega,
            Nat.mul_add_div (by omega), Nat.zero_div]
        rw [hmod, hdiv, if_pos rfl, hnextq1]
      · have hmod : (i + 1) % SAlloc p0 = i % SAlloc p0 + 1 := by
          rw [show i + 1 = SAlloc p0 * (i / SAlloc p0) + (i % SAlloc p0 + 1) from by omega,
            Nat.mul_add_mod, Nat.mod_eq_of_lt (show i % SAlloc p0 + 1 < SAlloc p0 by omega)]
        have hdiv : (i + 1) / SAlloc p0 = i / SAlloc p0 := by
          rw [show i + 1 = SAlloc p0 * (i / SAlloc p0) + (i % SAlloc p0 + 1) from by omega,
            Nat.mul_add_div (by omega),
            Nat.div_eq_of_lt (show i % SAlloc p0 + 1 < SAlloc p0 by omega)]
          omega
        rw [hmod, hdiv, if_neg (by omega), hnextq1]
    · -- freeList equation
      show (if 0 < blk2.freeCount then [i / SAlloc p0] else [])
          = (if (i + 1) % SAlloc p0 = 0 then [] else [(i + 1) / SAlloc p0])
      by_cases hrl : i % SAlloc p0 + 1 = SAlloc p0
      · have hieq : i + 1 = SAlloc p0 * (i / SAlloc p0 + 1) := by
          have hd : SAlloc p0 * (i / SAlloc p0 + 1)
              = SAlloc p0 * (i / SAlloc p0) + SAlloc p0 := by
            ring
          omega
        have hmod : (i + 1) % SAlloc p0 = 0 := by
          rw [hieq]
          exact Nat.mul_mod_right _ _
        rw [hmod, if_pos rfl, if_neg (by omega)]
      · have hmod : (i + 1) % SAlloc p0 = i % SAlloc p0 + 1 := by
          rw [show i + 1 = SAlloc p0 * (i / SAlloc p0) + (i % SAlloc p0 + 1) from by omega,
            Nat.mul_add_mod, Nat.mod_eq_of_lt (show i % SAlloc p0 + 1 < SAlloc p0 by omega)]
        have hdiv : (i + 1) / SAlloc p0 = i / SAlloc p0 := by
          rw [show i + 1 = SAlloc p0 * (i / SAlloc p0) + (i % SAlloc p0 + 1) from by omega,
            Nat.mul_add_div (by omega),
            Nat.div_eq_of_lt (show i % SAlloc p0 + 1 < SAlloc p0 by omega)]
          omega
        rw [hmod, hdiv, if_pos (by omega), if_neg (by omega)]
    · intro j hj
      have hj2 : p.nextBlockIndex ≤ j := hj
      show updBlocks p.blocks (i / SAlloc p0) blk2 j = none
      rw [updBlocks_other (by omega)]
      exact hnone j hj2
    · intro j hj
      have hj2 : j < p.nextBlockIndex := hj
      by_cases heq : j = i / SAlloc p0
      · subst heq
        refine ⟨blk2, updBlocks_same, hpre2.trans hpre, hsize2.trans hsizeq, hwf2, ?_⟩
        intro t ht
        rw [hlen2] at ht
        have hmin2 : min p0.blockSize (i + 1 - i / SAlloc p0 * SAlloc p0)
            = i % SAlloc p0 + 1 := by
          have h1 : i / SAlloc p0 * SAlloc p0 ≤ i := by
            rw [Nat.mul_comm]
            omega
          rw [show i + 1 - i / SAlloc p0 * SAlloc p0 = i % SAlloc p0 + 1 from by omega]
          exact Nat.min_eq_right (by omega)
        rw [hmin2]
        constructor
        · intro hbt
          by_cases hteq : t = i % SAlloc p0
          · omega
          · rw [hoth2 t hteq] at hbt
            have := (hbits2 t ht).mp hbt
            omega
        · intro htlt
          by_cases hteq : t = i % SAlloc p0
          · rw [hteq]
            exact hbit2
          · rw [hoth2 t hteq]
            exact (hbits2 t ht).mpr (by omega)
      · obtain ⟨blkj, hblkj, h1, h2, h3, h4⟩ := hsome j (by omega)
        refine ⟨blkj, ?_, h1, h2, h3, ?_⟩
        · show updBlocks p.blocks (i / SAlloc p0) blk2 j = some blkj
          rw [updBlocks_other heq]
          exact hblkj
        intro t ht
        have h5 := h4 t ht
        have hjlt : j < i / SAlloc p0 := by omega
        have h6 : j + 1 ≤ i / SAlloc p0 := by omega
        have h7 : (j + 1) * SAlloc p0 ≤ i / SAlloc p0 * SAlloc p0 :=
          Nat.mul_le_mul_right _ h6
        have h8 : i / SAlloc p0 * SAlloc p0 ≤ i := by
          rw [Nat.mul_comm]
          omega
        have h9 : (j + 1) * SAlloc p0 = j * SAlloc p0 + SAlloc p0 := by
          ring
        have h10 : min p0.blockSize (i - j * SAlloc p0) = p0.blockSize :=
          Nat.min_eq_left (by omega)
        have h11 : min p0.blockSize (i + 1 - j * SAlloc p0) = p0.blockSize :=
          Nat.min_eq_left (by omega)
        rw [h10] at h5
        rw [h11]
        exact h5

/-- After `totalAllocs p0` fresh-run calls the pool is exhausted: `Allocate`
fails with `poolExhausted` and the description is unchanged. -/
theorem FreshState_exhaust {p0 p : Pool} (hfs : FreshState p0 p (totalAllocs p0)) :
    ∃ p2, p.Allocate = some (.error .poolExhausted, p2) ∧
      FreshState p0 p2 (totalAllocs p0) := by
  obtain ⟨hmask, hna, hhb, hbs, hmb, hnext, hfl, hnone, hsome⟩ := hfs
  have hS0 : 0 < SAlloc p0 := by
    simp [SAlloc]
  have hmod : totalAllocs p0 % SAlloc p0 = 0 := by
    simp only [totalAllocs]
    exact Nat.mul_mod_left _ _
  have hdiv : totalAllocs p0 / SAlloc p0 = p0.maxBlocks := by
    rw [show totalAllocs p0 = SAlloc p0 * p0.maxBlocks + 0 from by
      simp only [totalAllocs]
      ring, Nat.mul_add_div hS0, Nat.zero_div]
    omega
  have hflnil : p.freeList = [] := by
    rw [hfl, if_pos hmod]
  have haf : allocFLAux p.blocks p.freeList.reverse = some (none, []) := by
    rw [hflnil]
    rfl
  have hex : p.maxBlocks ≤ p.nextBlockIndex := by
    rw [hmb, hnext, if_pos hmod, hdiv]
    omega
  refine ⟨{ p with freeList := [] }, ?_,
    hmask, hna, hhb, hbs, hmb, hnext, (if_pos hmod).symm, hnone, hsome⟩
  simp only [Pool.Allocate, haf]
  rw [if_pos hex]

/-- Full characterization of a fresh run: the calls up to exhaustion return
the arithmetic addresses `addrVal`, later calls fail with `poolExhausted`. -/
theorem allocSeq_spec {n bp : Nat} {p0 : Pool} (hw0 : PoolWF n bp p0) :
    ∀ (k i : Nat) (p : Pool), FreshState p0 p i → i ≤ totalAllocs p0 →
    ∃ rs pf, allocSeq p k = some (rs, pf) ∧ rs.length = k ∧
      FreshState p0 pf (min (i + k) (totalAllocs p0)) ∧
      ∀ m, m < k → rs.getD m (.error .blockFull)
        = if i + m < totalAllocs p0 then .ok (ofVal (addrVal p0 (i + m)))
          else .error .poolExhausted := by
  intro k
  induction k with
  | zero =>
    intro i p hfs hle
    refine ⟨[], p, rfl, rfl, ?_, ?_⟩
    · rw [Nat.add_zero, Nat.min_eq_left hle]
      exact hfs
    · intro m hm
      exact absurd hm (by omega)
  | succ k ih =>
    intro i p hfs hle
    by_cases hi : i < totalAllocs p0
    · have hstep2 : ∃ p2, p.Allocate = some (.ok (ofVal (addrVal p0 i)), p2) ∧
          FreshState p0 p2 (i + 1) := by
        by_cases hr : i % SAlloc p0 = 0
        · exact FreshState_step_new hw0 hfs hi hr
        · exact FreshState_step_pop hw0 hfs hi hr
      obtain ⟨p2, hstep, hfs2⟩ := hstep2
      obtain ⟨rs, pf, hrun, hlen, hfsf, hvals⟩ := ih (i + 1) p2 hfs2 (by omega)
      refine ⟨.ok (ofVal (addrVal p0 i)) :: rs, pf, ?_, ?_, ?_, ?_⟩
      · simp only [allocSeq, hstep, hrun]
      · simp [hlen]
      · rw [show i + (k + 1) = i + 1 + k from by omega]
        exact hfsf
      · intro m hm
        cases m with
        | zero =>
          rw [List.getD_cons_zero, if_pos (by omega), Nat.add_zero]
        | succ m2 =>
          rw [List.getD_cons_succ, show i + (m2 + 1) = i + 1 + m2 from by omega]
          exact hvals m2 (by omega)
    · have hieq : i = totalAllocs p0 := by omega
      subst hieq
      obtain ⟨p2, hstep, hfs2⟩ := FreshState_exhaust hfs
      obtain ⟨rs, pf, hrun, hlen, hfsf, hvals⟩ := ih (totalAllocs p0) p2 hfs2 (le_refl _)
      refine ⟨.error .poolExhausted :: rs, pf, ?_, ?_, ?_, ?_⟩
      · simp only [allocSeq, hstep, hrun]
      · simp [hlen]
      · have h1 : min (totalAllocs p0 + (k + 1)) (totalAllocs p0) = totalAllocs p0 :=
          Nat.min_eq_right (by omega)
        have h2 : min (totalAllocs p0 + k) (totalAllocs p0) = totalAllocs p0 :=
          Nat.min_eq_right (by omega)
        rw [h1]
        rw [h2] at hfsf
        exact hfsf
      · intro m hm
        cases m with
        | zero =>
          rw [List.getD_cons_zero, if_neg (by omega)]
        | succ m2 =>
          rw [List.getD_cons_succ, hvals m2 (by omega), if_neg (by omega),
            if_neg (by omega)]

/-- Pool states reachable from `NewPool` through the public API:
construction, `Allocate`, `Release`, and snapshot–restore. -/
inductive Reach (ip0 : Uint128) (nP bpP : Int) : Pool → Prop where
  | base (eb : Int) (p : Pool) : NewPool ip0 nP bpP eb = .ok p → Reach ip0 nP bpP p
  | alloc (p : Pool) (r : Except Err Uint128) (p2 : Pool) :
      Reach ip0 nP bpP p → p.Allocate = some (r, p2) → Reach ip0 nP bpP p2
  | release (p : Pool) (a : Uint128) (r : Except Err Unit) (p2 : Pool) :
      Reach ip0 nP bpP p → p.Release a = (r, p2) → Reach ip0 nP bpP p2
  | restore (p p2 : Pool) :
      Reach ip0 nP bpP p → NewPoolFromSnapshot p.Snapshot = .ok p2 → Reach ip0 nP bpP p2

/-- The pool invariant holds in every reachable state. -/
theorem Reach_wf {ip0 : Uint128} (hip : ip0.wf) {nP bpP : Int} {p : Pool}
    (h : Reach ip0 nP bpP p) : PoolWF nP.toNat bpP.toNat p := by
  induction h with
  | base eb p hnew => exact (NewPool_wf hip hnew).1
  | alloc p r p2 hre hal ih =>
    obtain ⟨r2, p3, halloc, hwf, _⟩ := Allocate_spec ih
    have h2 := hal.symm.trans halloc
    simp only [Option.some.injEq, Prod.mk.injEq] at h2
    rw [h2.2]
    exact hwf
  | release p a r p2 hre hrel ih =>
    have h1 := (Release_spec ih a).1
    rw [hrel] at h1
    exact h1
  | restore p p2 hre hres ih =>
    have hbsne : p.blockSize ≠ 0 := by
      intro h0
      have h1 : NewPoolFromSnapshot p.Snapshot = .error .invalidSnapshot := by
        simp only [NewPoolFromSnapshot, Pool.Snapshot]
        rw [if_pos (Or.inr h0)]
      rw [h1] at hres
      exact absurd hres (by simp)
    have h2 := (restore_eq ih hbsne).symm.trans hres
    simp only [Except.ok.injEq] at h2
    rw [← h2]
    exact ih

/-- Residues of the per-block counter stay below the host range. -/
theorem addr_res_lt {n bp : Nat} {p0 : Pool} (hw0 : PoolWF n bp p0) (i : Nat) :
    i % SAlloc p0 < 2 ^ p0.hostBits := by
  have h := Nat.mod_lt i (show 0 < SAlloc p0 by simp [SAlloc])
  by_cases hb : p0.blockSize = 0
  · have h1 : SAlloc p0 = 1 := by
      simp [SAlloc, hb]
    have hp : 0 < 2 ^ p0.hostBits := by positivity
    omega
  · have hSbs : SAlloc p0 = p0.blockSize := Nat.max_eq_left (by omega)
    have h2 := hw0.blockSize_le
    omega

/-- The fresh-run address values stay inside the 128-bit range. -/
theorem addrVal_lt {n bp : Nat} {p0 : Pool} (hw0 : PoolWF n bp p0) {i : Nat}
    (hi : i < totalAllocs p0) : addrVal p0 i < 2 ^ 128 := by
  have hS0 : 0 < SAlloc p0 := by
    simp [SAlloc]
  have hqmb : i / SAlloc p0 < p0.maxBlocks := by
    by_contra hc
    push_neg at hc
    have h1 : p0.maxBlocks * SAlloc p0 ≤ i / SAlloc p0 * SAlloc p0 :=
      Nat.mul_le_mul_right _ hc
    have h2 : i / SAlloc p0 * SAlloc p0 = SAlloc p0 * (i / SAlloc p0) := Nat.mul_comm _ _
    have h3 := hi
    simp only [totalAllocs] at h3
    have hqr := Nat.div_add_mod i (SAlloc p0)
    omega
  have hrng := hw0.range_bound
  have hmul : (i / SAlloc p0 + 1) * 2 ^ p0.hostBits ≤ p0.maxBlocks * 2 ^ p0.hostBits :=
    Nat.mul_le_mul_right _ (by omega)
  have hsucc : (i / SAlloc p0 + 1) * 2 ^ p0.hostBits
      = i / SAlloc p0 * 2 ^ p0.hostBits + 2 ^ p0.hostBits := by
    ring
  have hres := addr_res_lt hw0 i
  simp only [addrVal]
  omega

/-- Distinct call indices of a fresh run yield distinct address values. -/
theorem addrVal_inj {n bp : Nat} {p0 : Pool} (hw0 : PoolWF n bp p0) {i1 i2 : Nat}
    (hne : i1 ≠ i2) : addrVal p0 i1 ≠ addrVal p0 i2 := by
  intro heq
  have hS0 : 0 < SAlloc p0 := by
    simp [SAlloc]
  have hpow : 0 < 2 ^ p0.hostBits := by positivity
  have hr1 := addr_res_lt hw0 i1
  have hr2 := addr_res_lt hw0 i2
  have e1 : i1 / SAlloc p0 * 2 ^ p0.hostBits + i1 % SAlloc p0
      = i2 / SAlloc p0 * 2 ^ p0.hostBits + i2 % SAlloc p0 := by
    simp only [addrVal] at heq
    omega
  have hq1 : (i1 / SAlloc p0 * 2 ^ p0.hostBits + i1 % SAlloc p0) / 2 ^ p0.hostBits
      = i1 / SAlloc p0 := by
    rw [Nat.mul_comm, Nat.mul_add_div hpow, Nat.div_eq_of_lt hr1]
    omega
  have hq2 : (i2 / SAlloc p0 * 2 ^ p0.hostBits + i2 % SAlloc p0) / 2 ^ p0.hostBits
      = i2 / SAlloc p0 := by
    rw [Nat.mul_comm, Nat.mul_add_div hpow, Nat.div_eq_of_lt hr2]
    omega
  have hqeq : i1 / SAlloc p0 = i2 / SAlloc p0 := by
    rw [← hq1, ← hq2, e1]
  have hmeq : i1 / SAlloc p0 * 2 ^ p0.hostBits = i2 / SAlloc p0 * 2 ^ p0.hostBits := by
    rw [hqeq]
  have hSmul : SAlloc p0 * (i1 / SAlloc p0) = SAlloc p0 * (i2 / SAlloc p0) := by
    rw [hqeq]
  have hd1 := Nat.div_add_mod i1 (SAlloc p0)
  have hd2 := Nat.div_add_mod i2 (SAlloc p0)
  omega

/-! ### Concrete test fixtures -/

/-- Inert pool used as the fallback of the fixture extractors. -/
def poolFallback : Pool :=
  { blockMask := [], networkAddr := ⟨0, 0⟩, hostBits := 0, blockSize := 0,
    blocks := fun _ => none, freeList := [], nextBlockIndex := 0, maxBlocks := 0 }

def poolOf (e : Except Err Pool) : Pool :=
  match e with
  | .ok p => p
  | .error _ => poolFallback

/-- `NewPool(::, 127, 128, 0)`: 2 blocks of 1 address. -/
def pool127 : Pool := poolOf (NewPool ⟨0, 0⟩ 127 128 0)

/-- `NewPool(::, 63, 64, 0)`: the degenerate regime (`blockSize = 0`). -/
def pool63 : Pool := poolOf (NewPool ⟨0, 0⟩ 63 64 0)

/-- `NewPool(::, 65, 128, 0)`: single-address blocks below a /65 network. -/
def pool65 : Pool := poolOf (NewPool ⟨0, 0⟩ 65 128 0)

/-- The pool after one `Allocate` (the pool itself if `Allocate` panics). -/
def afterAlloc (p : Pool) : Pool :=
  match p.Allocate with
  | some (_, p2) => p2
  | none => p

/-- Masking away an offset below the alignment recovers the aligned base. -/
theorem maskN_offset {x : Uint128} (hx : x.wf) {n : Nat} (hn : n ≤ 128)
    (hal : x.val % 2 ^ (128 - n) = 0) {d : Nat} (hd : d < 2 ^ (128 - n))
    (hbound : x.val + d < 2 ^ 128) :
    (ofVal (x.val + d)).maskN n = x := by
  have hwfd : (ofVal (x.val + d)).wf := ofVal_wf hbound
  obtain ⟨hmwf, hmval⟩ := Uint128.maskN_spec hwfd hn
  refine Uint128.eq_of_val hmwf hx ?_
  rw [hmval, ofVal_val hbound]
  have hq : x.val = 2 ^ (128 - n) * (x.val / 2 ^ (128 - n)) := by
    have := Nat.div_add_mod x.val (2 ^ (128 - n))
    omega
  have hmod : (x.val + d) % 2 ^ (128 - n) = d := by
    rw [hq, Nat.mul_add_mod, Nat.mod_eq_of_lt hd]
  omega

/-! ### The claims -/

/-- C1: for every pool created by `NewPool` and every finite run of
`Allocate` calls with no interleaved `Release`, two successful calls at
distinct positions return distinct addresses. -/
theorem C1_alloc_unique {ip : Uint128} {nP bpP eb : Int} {p0 : Pool}
    (hip : ip.wf) (hnew : NewPool ip nP bpP eb = .ok p0)
    (k m1 m2 : Nat) {rs : List (Except Err Uint128)} {pf : Pool}
    (hrun : allocSeq p0 k = some (rs, pf))
    (hm1 : m1 < k) (hm2 : m2 < k) (hne : m1 ≠ m2)
    {a1 a2 : Uint128} (ha1 : rs.getD m1 (.error .blockFull) = .ok a1)
    (ha2 : rs.getD m2 (.error .blockFull) = .ok a2) :
    a1 ≠ a2 := by
  have hw0 := (NewPool_wf hip hnew).1
  obtain ⟨rs2, pf2, hrun2, hlen2, hfs2, hvals⟩ :=
    allocSeq_spec hw0 k 0 p0 (FreshState_zero hip hnew) (Nat.zero_le _)
  have heq := hrun.symm.trans hrun2
  simp only [Option.some.injEq, Prod.mk.injEq] at heq
  obtain ⟨hrs, hpf⟩ := heq
  subst hrs
  have h1 := hvals m1 hm1
  have h2 := hvals m2 hm2
  rw [Nat.zero_add] at h1 h2
  have ha1v : a1 = ofVal (addrVal p0 m1) ∧ m1 < totalAllocs p0 := by
    by_cases hc : m1 < totalAllocs p0
    · rw [if_pos hc, ha1] at h1
      simp only [Except.ok.injEq] at h1
      exact ⟨h1, hc⟩
    · rw [if_neg hc, ha1] at h1
      exact absurd h1 (by simp)
  have ha2v : a2 = ofVal (addrVal p0 m2) ∧ m2 < totalAllocs p0 := by
    by_cases hc : m2 < totalAllocs p0
    · rw [if_pos hc, ha2] at h2
      simp only [Except.ok.injEq] at h2
      exact ⟨h2, hc⟩
    · rw [if_neg hc, ha2] at h2
      exact absurd h2 (by simp)
  intro haeq
  have hv : addrVal p0 m1 = addrVal p0 m2 := by
    have e1 : (ofVal (addrVal p0 m1)).val = (ofVal (addrVal p0 m2)).val := by
      rw [← ha1v.1, ← ha2v.1, haeq]
    rw [ofVal_val (addrVal_lt hw0 ha1v.2), ofVal_val (addrVal_lt hw0 ha2v.2)] at e1
    exact e1
  exact addrVal_inj hw0 hne hv

theorem C1_alloc_unique_witness : (Uint128.mk 0 0) ≠ (Uint128.mk 0 1) :=
  C1_alloc_unique ⟨by norm_num, by norm_num⟩
    (rfl : NewPool (Uint128.mk 0 0) 127 128 0 = Except.ok pool127) 2 0 1 rfl
    (by omega) (by omega) (by omega) rfl rfl

/-- C2 counterexample: a pool with `blockSize = 0` has
`maxBlocks × blockSize = 0` total addresses, yet its first `Allocate`
succeeds instead of failing with `poolExhausted`. -/
theorem C2_counterexample :
    pool63.maxBlocks * pool63.blockSize = 0 ∧
    (∃ p2, pool63.Allocate = some (.ok ⟨0, 0⟩, p2)) :=
  ⟨rfl, _, rfl⟩

/-- C2 (amended: `blockPrefix > 64`, so that `blockSize = 2^(128-blockPrefix)`
does not truncate to zero): with `N = maxBlocks × blockSize` total addresses
and no releases, the first `N` calls succeed and the `(N+1)`-th fails with
`poolExhausted`. -/
theorem C2_exhaustion {ip : Uint128} {nP bpP eb : Int} {p0 : Pool}
    (hip : ip.wf) (hnew : NewPool ip nP bpP eb = .ok p0) (hbp : 64 < bpP) :
    ∃ rs pf, allocSeq p0 (p0.maxBlocks * p0.blockSize + 1) = some (rs, pf) ∧
      rs.length = p0.maxBlocks * p0.blockSize + 1 ∧
      (∀ m, m < p0.maxBlocks * p0.blockSize →
        rs.getD m (.error .blockFull) = .ok (ofVal (addrVal p0 m))) ∧
      rs.getD (p0.maxBlocks * p0.blockSize) (.error .blockFull)
        = .error .poolExhausted := by
  have hw0 := (NewPool_wf hip hnew).1
  have hbp2 : 64 < bpP.toNat := by omega
  have hbsne : p0.blockSize ≠ 0 := by
    rw [hw0.blockSize_eq, if_pos hbp2]
    have h0 : 0 < (2 : Nat) ^ (128 - bpP.toNat) := by positivity
    omega
  have htot : totalAllocs p0 = p0.maxBlocks * p0.blockSize := by
    simp only [totalAllocs, SAlloc]
    rw [Nat.max_eq_left (by omega)]
  obtain ⟨rs, pf, hrun, hlen, hfs, hvals⟩ := allocSeq_spec hw0
    (p0.maxBlocks * p0.blockSize + 1) 0 p0 (FreshState_zero hip hnew) (Nat.zero_le _)
  refine ⟨rs, pf, hrun, hlen, ?_, ?_⟩
  · intro m hm
    have h1 := hvals m (by omega)
    rw [Nat.zero_add, if_pos (by omega)] at h1
    exact h1
  · have h1 := hvals (p0.maxBlocks * p0.blockSize) (by omega)
    rw [Nat.zero_add, if_neg (by omega)] at h1
    exact h1

theorem C2_exhaustion_witness :
    ∃ rs pf, allocSeq pool127 (pool127.maxBlocks * pool127.blockSize + 1)
        = some (rs, pf) ∧
      rs.length = pool127.maxBlocks * pool127.blockSize + 1 ∧
      (∀ m, m < pool127.maxBlocks * pool127.blockSize →
        rs.getD m (.error .blockFull) = .ok (ofVal (addrVal pool127 m))) ∧
      rs.getD (pool127.maxBlocks * pool127.blockSize) (.error .blockFull)
        = .error .poolExhausted :=
  C2_exhaustion ⟨by norm_num, by norm_num⟩
    (rfl : NewPool (Uint128.mk 0 0) 127 128 0 = Except.ok pool127) (by omega)

/-- C3 counterexample: a degenerate pool (`blockSize = 0`) is created by
`NewPool`, yet restoring its own snapshot fails instead of succeeding. -/
theorem C3_counterexample :
    NewPool ⟨0, 0⟩ 63 64 0 = .ok pool63 ∧
    NewPoolFromSnapshot pool63.Snapshot = .error .invalidSnapshot :=
  ⟨rfl, rfl⟩

/-- C3 (amended: requires `blockSize ≠ 0`; `NewPoolFromSnapshot` rejects any
snapshot with `BlockSize = 0`, including those of degenerate pools):
restoring the snapshot of a reachable pool succeeds and yields a pool whose
every subsequent `Allocate` run returns exactly the original's results. -/
theorem C3_snapshot_restore {ip0 : Uint128} (hip : ip0.wf) {nP bpP : Int} {p : Pool}
    (hre : Reach ip0 nP bpP p) (hbs : p.blockSize ≠ 0) :
    ∃ q, NewPoolFromSnapshot p.Snapshot = .ok q ∧
      ∀ k, allocSeq q k = allocSeq p k :=
  ⟨p, restore_eq (Reach_wf hip hre) hbs, fun _ => rfl⟩

theorem C3_snapshot_restore_witness :
    ∃ q, NewPoolFromSnapshot pool127.Snapshot = .ok q ∧
      ∀ k, allocSeq q k = allocSeq pool127 k :=
  C3_snapshot_restore ⟨by norm_num, by norm_num⟩
    (Reach.base 0 pool127 (rfl : NewPool (Uint128.mk 0 0) 127 128 0 = Except.ok pool127))
    (by decide)

/-- C4 counterexample: an address whose block index hits an existing block
but whose high half lies outside the block makes `Release` surface the raw
`outOfRange` error to the caller instead of folding it into the
address-not-in-pool error. -/
theorem C4_counterexample : ∃ p2 : Pool,
    pool65.Allocate = some (.ok ⟨0, 0⟩, p2) ∧
    (p2.Release ⟨1, 0⟩).1 = .error .outOfRange ∧
    (p2.Release ⟨1, 0⟩).1 ≠ .error .ipNotFromPool := by
  refine ⟨afterAlloc pool65, rfl, rfl, ?_⟩
  intro h
  have h1 : ((afterAlloc pool65).Release ⟨1, 0⟩).1 = .error .outOfRange := rfl
  have h2 : Err.outOfRange = Err.ipNotFromPool := Except.error.inj (h1.symm.trans h)
  exact absurd h2 (by decide)

/-- C4 (amended): when the computed block index has an existing block but the
address does not map to a valid in-block offset, `Release` fails with the
internal `outOfRange` error returned raw — `ipToBit` produces no other error,
and `Release` forwards it unchanged, leaving the pool untouched. -/
theorem C4_release_oor {p : Pool} {ip : Uint128} (blk : Block) {e : Err}
    (hblk : p.blocks ((ip.sub p.networkAddr).rsh p.hostBits).Lo = some blk)
    (hbad : blk.ipToBit ip = .error e) :
    e = .outOfRange ∧ p.Release ip = (.error .outOfRange, p) := by
  have he := ipToBit_error_eq hbad
  subst he
  refine ⟨rfl, ?_⟩
  simp only [Pool.Release, hblk, hbad]

def pool65a : Pool := afterAlloc pool65

theorem C4_release_oor_witness :
    Err.outOfRange = Err.outOfRange ∧
    pool65a.Release ⟨1, 0⟩ = (.error .outOfRange, pool65a) :=
  C4_release_oor { prefixIP := ⟨0, 0⟩, used := [1], freeCount := 0, size := 1 }
    rfl rfl

/-- C5: every address returned by a successful `Allocate`, masked to the
pool network prefix length, is the pool's canonical network address. -/
theorem C5_containment {ip0 : Uint128} (hip : ip0.wf) {nP bpP : Int} {p : Pool}
    (hre : Reach ip0 nP bpP p) {a : Uint128} {p2 : Pool}
    (hal : p.Allocate = some (.ok a, p2)) :
    a.maskN nP.toNat = p.networkAddr := by
  have hw := Reach_wf hip hre
  obtain ⟨r, p3, heq, hw2, hna2, hhb2, hbs2, hmb2, hmask2, hmono, herr, hok⟩ :=
    Allocate_spec hw
  have h2 := hal.symm.trans heq
  simp only [Option.some.injEq, Prod.mk.injEq] at h2
  obtain ⟨hr, hp⟩ := h2
  obtain ⟨bi, idx, blk2, hbi, hblk2, hpre, hsize, hwfb, haeq, hdeg, hpos⟩ := hok a hr.symm
  have hn128 : nP.toNat ≤ 128 := hw.1
  have hidxh : idx < 2 ^ p.hostBits := by
    by_cases hb0 : p.blockSize = 0
    · rw [hdeg hb0]
      positivity
    · have h1 := hpos (by omega)
      have h2b := hw.blockSize_le
      omega
  have hidx64 : idx < 2 ^ 64 := by
    by_cases hb0 : p.blockSize = 0
    · rw [hdeg hb0]
      norm_num
    · have h1 := hpos (by omega)
      have h2b := hw.blockSize_lt
      omega
  have hpows : (2 : Nat) ^ (bpP.toNat - nP.toNat) * 2 ^ (128 - bpP.toNat)
      = 2 ^ (128 - nP.toNat) := by
    rw [← pow_add]
    congr 1
    have h3 := hw.2.1
    have h4 := hw.2.2.1
    omega
  have hmul : (bi + 1) * 2 ^ p.hostBits ≤ p.maxBlocks * 2 ^ p.hostBits :=
    Nat.mul_le_mul_right _ (by omega)
  have hsucc : (bi + 1) * 2 ^ p.hostBits = bi * 2 ^ p.hostBits + 2 ^ p.hostBits := by
    ring
  have hmbpow : p.maxBlocks * 2 ^ p.hostBits = 2 ^ (128 - nP.toNat) := by
    rw [hw.maxBlocks_eq, hw.hostBits_eq, hpows]
  have hdel : bi * 2 ^ p.hostBits + idx < 2 ^ (128 - nP.toNat) := by
    omega
  obtain ⟨hbwf, hbval, hbbound⟩ := hw.base_spec hbi
  have hav : a = ofVal (p.networkAddr.val + (bi * 2 ^ p.hostBits + idx)) := by
    rw [haeq, bitToIP_spec (by rw [hpre]; exact hbwf) hidx64
      (by rw [hpre, hbval]; omega), hpre, hbval]
    exact congrArg ofVal (by omega)
  rw [hav]
  exact maskN_offset hw.na_wf hn128 hw.na_aligned hdel (by omega)

theorem C5_containment_witness :
    (Uint128.mk 0 0).maskN (127 : Int).toNat = pool127.networkAddr :=
  C5_containment ⟨by norm_num, by norm_num⟩
    (Reach.base 0 pool127 (rfl : NewPool (Uint128.mk 0 0) 127 128 0 = Except.ok pool127))
    (rfl : pool127.Allocate = some (.ok (Uint128.mk 0 0), afterAlloc pool127))

/-- C6: on a well-formed block, `allocBit` never returns an offset at or
above the capacity, returns the smallest free offset, sets its bit and
decrements `freeCount`; it succeeds whenever some offset below capacity is
free, and it fails only with `blockFull` and only when every offset below
capacity is allocated. -/
theorem C6_allocBit {b : Block} (hwf : WFBlock b) :
    (∀ idx b2, b.allocBit = .ok (idx, b2) →
      idx < b.size ∧ bmBit b.used idx = false ∧
      (∀ u, u < b.size → bmBit b.used u = false → idx ≤ u) ∧
      bmBit b2.used idx = true ∧
      (∀ u, u ≠ idx → bmBit b2.used u = bmBit b.used u) ∧
      b2.freeCount + 1 = b.freeCount) ∧
    (∀ e, b.allocBit = .error e →
      e = .blockFull ∧ ∀ t, t < b.size → bmBit b.used t = true) ∧
    (∀ t, t < b.size → bmBit b.used t = false →
      ∃ idx b2, b.allocBit = .ok (idx, b2)) := by
  refine ⟨?_, ?_, ?_⟩
  · intro idx b2 h
    obtain ⟨h1, h2, h3, h4, h5, h6, h7, h8, h9, h10, h11⟩ := allocBit_ok hwf h
    exact ⟨h1, h2, h3, h7, h8, h11⟩
  · intro e h
    exact allocBit_error hwf h
  · intro t ht hfree
    exact allocBit_isOk hwf ht hfree

theorem C6_allocBit_witness :
    (∀ idx b2, (newBlock (Uint128.mk 0 0) 5).allocBit = .ok (idx, b2) →
      idx < (newBlock (Uint128.mk 0 0) 5).size ∧
      bmBit (newBlock (Uint128.mk 0 0) 5).used idx = false ∧
      (∀ u, u < (newBlock (Uint128.mk 0 0) 5).size →
        bmBit (newBlock (Uint128.mk 0 0) 5).used u = false → idx ≤ u) ∧
      bmBit b2.used idx = true ∧
      (∀ u, u ≠ idx → bmBit b2.used u = bmBit (newBlock (Uint128.mk 0 0) 5).used u) ∧
      b2.freeCount + 1 = (newBlock (Uint128.mk 0 0) 5).freeCount) ∧
    (∀ e, (newBlock (Uint128.mk 0 0) 5).allocBit = .error e →
      e = .blockFull ∧ ∀ t, t < (newBlock (Uint128.mk 0 0) 5).size →
        bmBit (newBlock (Uint128.mk 0 0) 5).used t = true) ∧
    (∀ t, t < (newBlock (Uint128.mk 0 0) 5).size →
      bmBit (newBlock (Uint128.mk 0 0) 5).used t = false →
      ∃ idx b2, (newBlock (Uint128.mk 0 0) 5).allocBit = .ok (idx, b2)) :=
  C6_allocBit (by decide)

/-- C7: in every pool reachable through `NewPool`, `Allocate`, `Release` and
`NewPoolFromSnapshot`, every block satisfies
`freeCount = capacity - popcount(bitmap)`. -/
theorem C7_freeCount_invariant {ip0 : Uint128} (hip : ip0.wf) {nP bpP : Int} {p : Pool}
    (hre : Reach ip0 nP bpP p) :
    ∀ bi blk, p.blocks bi = some blk → blk.freeCount = blk.size - bitsum blk.used := by
  intro bi blk hblk
  obtain ⟨h1, h2, h3, hwfb⟩ := (Reach_wf hip hre).blocks_spec bi blk hblk
  exact hwfb.2.2.2.2.1

theorem C7_freeCount_invariant_witness :
    ({ prefixIP := ⟨0, 0⟩, used := [1], freeCount := 0, size := 1 } : Block).freeCount
      = ({ prefixIP := ⟨0, 0⟩, used := [1], freeCount := 0, size := 1 } : Block).size
        - bitsum ({ prefixIP := ⟨0, 0⟩, used := [1], freeCount := 0, size := 1 } : Block).used :=
  C7_freeCount_invariant ⟨by norm_num, by norm_num⟩
    (Reach.alloc pool127 (.ok ⟨0, 0⟩) (afterAlloc pool127)
      (Reach.base 0 pool127 (rfl : NewPool (Uint128.mk 0 0) 127 128 0 = Except.ok pool127))
      (rfl : pool127.Allocate = some (.ok (Uint128.mk 0 0), afterAlloc pool127)))
    0 { prefixIP := ⟨0, 0⟩, used := [1], freeCount := 0, size := 1 } rfl

/-- C8: whenever `Release` returns an error, the entire pool state is
exactly as it was before the call. -/
theorem C8_release_error_unchanged (p : Pool) (ip : Uint128) (e : Err)
    (he : (p.Release ip).1 = .error e) : (p.Release ip).2 = p := by
  rcases hblk : p.blocks ((ip.sub p.networkAddr).rsh p.hostBits).Lo with _ | blk
  · simp only [Pool.Release, hblk]
  · rcases hi2b : blk.ipToBit ip with e2 | idx
    · simp only [Pool.Release, hblk, hi2b]
    · rcases hrel : blk.releaseBit idx with e2 | blk2
      · simp only [Pool.Release, hblk, hi2b, hrel]
      · exfalso
        simp only [Pool.Release, hblk, hi2b, hrel] at he
        by_cases hfc : 0 < blk2.freeCount
        · rw [if_pos hfc] at he
          exact absurd he (by simp)
        · rw [if_neg hfc] at he
          exact absurd he (by simp)

theorem C8_release_error_unchanged_witness :
    (pool127.Release ⟨0, 5⟩).2 = pool127 :=
  C8_release_error_unchanged pool127 ⟨0, 5⟩ .ipNotFromPool rfl

/-- C9 counterexample: in a degenerate pool (`blockSize = 0`), `Allocate`
succeeds with the block base address, yet immediately releasing that very
address fails. -/
theorem C9_counterexample : ∃ p2 : Pool,
    pool63.Allocate = some (.ok ⟨0, 0⟩, p2) ∧
    (p2.Release ⟨0, 0⟩).1 = .error .outOfRange :=
  ⟨afterAlloc pool63, rfl, rfl⟩

/-- C9 (amended: `blockPrefix > 64`, excluding the degenerate
`blockSize = 0` regime in which the allocated bit is never set): in every
reachable pool, a successful `Allocate` is immediately undone by a
successful `Release` of the returned address. -/
theorem C9_roundtrip {ip0 : Uint128} (hip : ip0.wf) {nP bpP : Int} {p : Pool}
    (hre : Reach ip0 nP bpP p) (hbp : 64 < bpP) {a : Uint128} {p2 : Pool}
    (hal : p.Allocate = some (.ok a, p2)) :
    (p2.Release a).1 = .ok () := by
  have hw := Reach_wf hip hre
  obtain ⟨r, p3, heq, hw2, hna2, hhb2, hbs2, hmb2, hmask2, hmono, herr, hok⟩ :=
    Allocate_spec hw
  have h2 := hal.symm.trans heq
  simp only [Option.some.injEq, Prod.mk.injEq] at h2
  obtain ⟨hr, hp⟩ := h2
  subst hp
  obtain ⟨bi, idx, blk2, hbi, hblk2, hpre, hsize, hwfb, haeq, hdeg, hpos⟩ := hok a hr.symm
  have hbp2 : 64 < bpP.toNat := by omega
  have hbspos : 0 < p.blockSize := by
    rw [hw.blockSize_eq, if_pos hbp2]
    positivity
  obtain ⟨hidx, hbit⟩ := hpos hbspos
  rw [haeq]
  exact Release_ok_of_allocated hw2 hbp2 (by omega) hblk2 (by omega) hbit

theorem C9_roundtrip_witness :
    ((afterAlloc pool127).Release (Uint128.mk 0 0)).1 = .ok () :=
  C9_roundtrip ⟨by norm_num, by norm_num⟩
    (Reach.base 0 pool127 (rfl : NewPool (Uint128.mk 0 0) 127 128 0 = Except.ok pool127))
    (by omega)
    (rfl : pool127.Allocate = some (.ok (Uint128.mk 0 0), afterAlloc pool127))

/-- C10: in every reachable pool, every index on the free list is a key of
the blocks map (and below `nextBlockIndex`), so the unguarded block lookup
in the free-list loop of `Allocate` never dereferences a missing block —
`Allocate` always returns a result instead of panicking. -/
theorem C10_freeList_sound {ip0 : Uint128} (hip : ip0.wf) {nP bpP : Int} {p : Pool}
    (hre : Reach ip0 nP bpP p) :
    (∀ bi, bi ∈ p.freeList →
      bi < p.nextBlockIndex ∧ ∃ blk, p.blocks bi = some blk) ∧
    p.Allocate ≠ none := by
  have hw := Reach_wf hip hre
  constructor
  · intro bi hbi
    obtain ⟨blk, hblk⟩ := hw.freeList_spec bi hbi
    exact ⟨(hw.blocks_spec bi blk hblk).1, blk, hblk⟩
  · obtain ⟨r, p2, heq, _⟩ := Allocate_spec hw
    rw [heq]
    simp

theorem C10_freeList_sound_witness :
    (∀ bi, bi ∈ (afterAlloc pool127).freeList →
      bi < (afterAlloc pool127).nextBlockIndex ∧
      ∃ blk, (afterAlloc pool127).blocks bi = some blk) ∧
    (afterAlloc pool127).Allocate ≠ none :=
  C10_freeList_sound ⟨by norm_num, by norm_num⟩
    (Reach.alloc pool127 (.ok ⟨0, 0⟩) (afterAlloc pool127)
      (Reach.base 0 pool127 (rfl : NewPool (Uint128.mk 0 0) 127 128 0 = Except.ok pool127))
      (rfl : pool127.Allocate = some (.ok (Uint128.mk 0 0), afterAlloc pool127)))

end Cidrx
